import Mathlib

/-!
Verification development for the Pavidi task runner and its embedded shell.

The Rust sources are shallowly embedded: strings are Lean `String`s,
machine integers are `Int`/`Nat`, hash maps are association lists or
functions, and external effects (the filesystem, glob expansion, child
process execution) are oracles passed as explicit parameters.  Loops that
are not structurally recursive in the source are given explicit fuel; the
fuel chosen by the wrappers is always sufficient for the inputs used.
-/

namespace Pavidi

/-! ## String primitives

Models of Rust `str::contains` and `str::replace` (left-to-right,
non-overlapping occurrences).  They are written on `List Char` so that
every definition is structural and evaluates by `rfl`/`decide`.
-/

/-- Model of Rust `str::contains` on char lists. -/
def containsList (pat : List Char) : List Char → Bool
  | [] => pat.isEmpty
  | c :: rest => pat.isPrefixOf (c :: rest) || containsList pat rest

/-- Model of Rust `str::replace` on char lists, with fuel.
At each position: if the pattern is a prefix, emit the replacement and
skip over the matched text, otherwise emit one char and advance. -/
def replaceList (pat rep : List Char) : Nat → List Char → List Char
  | 0, l => l
  | _ + 1, [] => []
  | fuel + 1, c :: rest =>
    if pat.isPrefixOf (c :: rest) then
      rep ++ replaceList pat rep fuel ((c :: rest).drop pat.length)
    else
      c :: replaceList pat rep fuel rest

/-- Rust `str::contains` lifted to `String`. -/
def strContains (s pat : String) : Bool :=
  containsList pat.toList s.toList

/-- Rust `str::replace` lifted to `String`.  The source never replaces an
empty pattern, so that case just returns the string. -/
def strReplace (s pat rep : String) : String :=
  if pat.toList.isEmpty then s
  else String.mk (replaceList pat.toList rep.toList s.toList.length s.toList)

/-! ## Environment-variable interpolation (src/utils.rs lines 52-61)

Model of the regex pass
`\$\{([a-zA-Z_][a-zA-Z0-9_]*)\}|\$([a-zA-Z_][a-zA-Z0-9_]*)` with
`replace_all`: known names are replaced by their values, unknown names
keep the matched text verbatim.
-/

def isIdentStart (c : Char) : Bool := c.isAlpha || c == '_'

def isIdentCont (c : Char) : Bool := c.isAlphanum || c == '_'

/-- Longest identifier at the head of the list: `some (name, rest)` when
the first char is a letter or underscore. -/
def takeIdent : List Char → Option (List Char × List Char)
  | [] => none
  | c :: cs =>
    if isIdentStart c then some (c :: cs.takeWhile isIdentCont, cs.dropWhile isIdentCont)
    else none

def braceOpen : Char := Char.ofNat 123

def braceClose : Char := Char.ofNat 125

/-- One left-to-right pass substituting `$NAME` and `$\x7bNAME\x7d`
references; fuel decreases by one per emitted-or-matched position and the
wrapper passes the list length, which always suffices. -/
def envInterpAux (env : String → Option String) : Nat → List Char → List Char
  | 0, l => l
  | _ + 1, [] => []
  | fuel + 1, c :: rest =>
    if c == '$' then
      match rest with
      | [] => [c]
      | d :: r2 =>
        if d == braceOpen then
          match takeIdent r2 with
          | some (name, e :: r4) =>
            if e == braceClose then
              (match env (String.mk name) with
               | some v => v.toList
               | none => c :: d :: (name ++ [e])) ++ envInterpAux env fuel r4
            else c :: envInterpAux env fuel rest
          | some (_, []) => c :: envInterpAux env fuel rest
          | none => c :: envInterpAux env fuel rest
        else
          match takeIdent rest with
          | some (name, r3) =>
            (match env (String.mk name) with
             | some v => v.toList
             | none => c :: name) ++ envInterpAux env fuel r3
          | none => c :: envInterpAux env fuel rest
    else c :: envInterpAux env fuel rest

/-- The env-interpolation pass of `expand_command` (src/utils.rs). -/
def envInterp (env : String → Option String) (s : String) : String :=
  String.mk (envInterpAux env s.toList.length s.toList)

/-! ## expand_command (src/utils.rs lines 24-64) -/

/-- One step of the `$N` substitution loop of `expand_command`: if `$N`
(for index `p.1`, 1-based placeholder) occurs in the accumulated string it
is substring-replaced and the `replaced_args` flag is set. -/
def numStep (acc : String × Bool) (p : Nat × String) : String × Bool :=
  if strContains acc.1 ("$" ++ toString (p.1 + 1)) then
    (strReplace acc.1 ("$" ++ toString (p.1 + 1)) p.2, true)
  else acc

/-- The `$N` substitution loop of `expand_command`, in increasing index
order. -/
def numLoop (st : String × Bool) (args : List String) : String × Bool :=
  args.enum.foldl numStep st

/-- Model of `expand_command`: splat `$@` substitution, then positional
`$N` substitution, then (only when nothing was substituted and the
argument list is non-empty) appending the joined arguments, then env-var
interpolation. -/
def expandCommand (tmpl : String) (args : List String) (env : String → Option String) :
    String :=
  let joined := String.intercalate " " args
  let p1 : String × Bool :=
    if strContains tmpl "$@" then (strReplace tmpl "$@" joined, true) else (tmpl, false)
  let p2 : String × Bool :=
    if args.isEmpty then p1
    else
      let r := numLoop p1 args
      if r.2 then r else (r.1 ++ " " ++ joined, true)
  envInterp env p2.1

/-- The `$N` loop leaves the accumulator unchanged when no placeholder for
any listed index occurs in it. -/
theorem numLoop_of_not_contains (tmpl : String) (l : List (Nat × String))
    (h : ∀ p ∈ l, strContains tmpl ("$" ++ toString (p.1 + 1)) = false) :
    l.foldl numStep (tmpl, false) = (tmpl, false) := by
  induction l with
  | nil => rfl
  | cons p ps ih =>
    have hp := h p (List.mem_cons_self p ps)
    simp only [List.foldl_cons, numStep, hp, Bool.false_eq_true, if_false]
    exact ih fun q hq => h q (List.mem_cons_of_mem p hq)

/-- The `replaced_args` flag never goes back from `true` to `false`. -/
theorem numLoop_flag_true (l : List (Nat × String)) (s : String) :
    (l.foldl numStep (s, true)).2 = true := by
  induction l generalizing s with
  | nil => rfl
  | cons p ps ih =>
    simp only [List.foldl_cons, numStep]
    by_cases hc : strContains s ("$" ++ toString (p.1 + 1)) = true
    · simp only [hc, if_true]; exact ih _
    · simp only [Bool.not_eq_true] at hc
      simp only [hc, Bool.false_eq_true, if_false]
      exact ih s

/-- Mirror of the unit test `test_expand_command_legacy_append`. -/
theorem expandCommand_test_legacy_append :
    expandCommand "echo hello" ["world"] (fun _ => none) = "echo hello world" := by
  decide

/-- Mirror of the unit test `test_expand_command_positional_args`. -/
theorem expandCommand_test_positional :
    expandCommand "echo $1 $2" ["hello", "world"] (fun _ => none)
      = "echo hello world" := by decide

/-- Mirror of the unit test `test_expand_command_splat_args_no_args`
(note the double space). -/
theorem expandCommand_test_splat_no_args :
    expandCommand "echo $@ end" [] (fun _ => none) = "echo  end" := by decide

/-- Mirror of the unit test `test_expand_command_splat_overrides_append`. -/
theorem expandCommand_test_splat_overrides_append :
    expandCommand "echo $@" ["hello"] (fun _ => none) = "echo hello" := by decide

/-- Mirror of the unit test `test_expand_command_env_vars`. -/
theorem expandCommand_test_env_vars :
    expandCommand "echo $MY_VAR" []
      (fun k => if k = "MY_VAR" then some "value" else none) = "echo value" := by
  decide

/-- C6 counterexample: with an empty argument list and a template without
placeholders, `expand_command` returns the template unchanged, not the
template followed by a space and the (empty) joined arguments as the
claim demands for every argument list. -/
theorem expandCommand_empty_args_cex :
    expandCommand "echo hi" [] (fun _ => none) = "echo hi" ∧
    "echo hi" ++ " " ++ String.intercalate " " ([] : List String) ≠ "echo hi" := by
  exact ⟨by decide, by decide⟩

/-- C6 (amended): for a template containing neither `$@` nor any `$N`
placeholder for an available index, and a non-empty argument list, the
result is the env-interpolation of the template followed by one space and
the space-joined arguments (for an empty argument list the template is
returned unchanged); and for a template containing `$@` the splat is
substituted (even for an empty argument list) and the positional-append
step never additionally occurs: the result is exactly the env-interpolated
`$N` loop applied after the splat replacement, with no appended suffix. -/
theorem expandCommand_append_and_splat :
    (∀ (tmpl : String) (args : List String) (env : String → Option String),
        strContains tmpl "$@" = false →
        (∀ i, i < args.length → strContains tmpl ("$" ++ toString (i + 1)) = false) →
        (args ≠ [] →
          expandCommand tmpl args env
            = envInterp env (tmpl ++ " " ++ String.intercalate " " args)) ∧
        (args = [] → expandCommand tmpl args env = envInterp env tmpl))
    ∧ (∀ (tmpl : String) (args : List String) (env : String → Option String),
        strContains tmpl "$@" = true →
        expandCommand tmpl args env
          = envInterp env
              (numLoop (strReplace tmpl "$@" (String.intercalate " " args), true) args).1) := by
  constructor
  · intro tmpl args env hsplat hnum
    have hloop : numLoop (tmpl, false) args = (tmpl, false) := by
      apply numLoop_of_not_contains
      intro p hp
      have hlen : p.1 < args.length := by
        have h1 := List.mem_enum_iff_getElem?.mp hp
        exact (List.getElem?_eq_some.mp h1).1
      exact hnum p.1 hlen
    constructor
    · intro hne
      have hargs : args.isEmpty = false := by
        cases args with
        | nil => exact absurd rfl hne
        | cons a l => rfl
      simp only [expandCommand, hsplat, Bool.false_eq_true, if_false, hargs, hloop]
    · intro he
      subst he
      simp only [expandCommand, hsplat, Bool.false_eq_true, if_false, List.isEmpty_nil,
        if_true]
  · intro tmpl args env hsplat
    cases hargs : args.isEmpty with
    | true =>
      have : args = [] := List.isEmpty_iff.mp hargs
      subst this
      simp only [expandCommand, hsplat, if_true, List.isEmpty_nil, numLoop, List.enum_nil,
        List.foldl_nil]
    | false =>
      have hflag : (numLoop (strReplace tmpl "$@" (String.intercalate " " args), true) args).2
          = true := numLoop_flag_true _ _
      simp only [expandCommand, hsplat, if_true, hargs, Bool.false_eq_true, if_false, numLoop]
      simp only [numLoop] at hflag
      simp only [hflag, if_true]

/-- Witness for the amended C6 theorem at concrete inputs. -/
theorem expandCommand_append_and_splat_witness :
    expandCommand "echo hi" ["world"] (fun _ => none)
      = envInterp (fun _ => none) ("echo hi" ++ " " ++ String.intercalate " " ["world"]) ∧
    expandCommand "echo $@" ["x"] (fun _ => none)
      = envInterp (fun _ => none)
          (numLoop (strReplace "echo $@" "$@" (String.intercalate " " ["x"]), true) ["x"]).1 := by
  constructor
  · exact (expandCommand_append_and_splat.1 "echo hi" ["world"] (fun _ => none)
      (by decide) (by decide)).1 (by decide)
  · exact expandCommand_append_and_splat.2 "echo $@" ["x"] (fun _ => none) (by decide)

/-- C10: positional placeholders are substituted by plain substring
replacement in increasing index order, so `$10` is consumed by the `$1`
substitution: it expands to the first argument followed by the literal
character `0`, never to the tenth argument (`"j"` here). -/
theorem expandCommand_dollar_ten :
    expandCommand "echo $10" ["a", "b", "c", "d", "e", "f", "g", "h", "i", "j"]
      (fun _ => none) = "echo a0" ∧ ("echo a0" : String) ≠ "echo j" := by
  exact ⟨by decide, by decide⟩

/-! ## Freshness cache (src/runner/cache.rs)

File modification times are modelled as `Nat` seconds since the UNIX
epoch; glob expansion is an oracle `fs : String → List Nat` giving the
mtimes of the files matched by a pattern.  `latest_src` starts at
`UNIX_EPOCH` (0) and `oldest_out` starts at `SystemTime::now()`, exactly
as in the source.
-/

/-- `isEmpty` distributes over append. -/
theorem isEmpty_append_eq {α : Type} (l r : List α) :
    (l ++ r).isEmpty = (l.isEmpty && r.isEmpty) := by
  cases l <;> simp

/-- The source scan of `is_up_to_date`: fold max over every entry of every
expanded pattern, flagging whether any entry was seen. -/
def srcScan (fs : String → List Nat) (patterns : List String) : Nat × Bool :=
  patterns.foldl
    (fun acc pat => (fs pat).foldl (fun a m => (Nat.max a.1 m, true)) acc)
    (0, false)

/-- The output scan of `is_up_to_date`: fold min (seeded with `now`) over
every entry of every expanded pattern, flagging whether any entry was
seen. -/
def outScan (fs : String → List Nat) (now : Nat) (patterns : List String) : Nat × Bool :=
  patterns.foldl
    (fun acc pat => (fs pat).foldl (fun a m => (Nat.min a.1 m, true)) acc)
    (now, false)

/-- Model of `is_up_to_date` (src/runner/cache.rs lines 6-44). -/
def isUpToDate (now : Nat) (fs : String → List Nat) (sources outputs : List String) :
    Bool :=
  let s := srcScan fs sources
  let o := outScan fs now outputs
  s.2 && o.2 && decide (s.1 < o.1)

/-- Inner pair-fold of the source scan, characterised. -/
theorem maxPairFold (ms : List Nat) (a : Nat) (b : Bool) :
    ms.foldl (fun p m => (Nat.max p.1 m, true)) (a, b)
      = (ms.foldl Nat.max a, b || !ms.isEmpty) := by
  induction ms generalizing a b with
  | nil => simp
  | cons m rest ih => simp [ih]

/-- Inner pair-fold of the output scan, characterised. -/
theorem minPairFold (ms : List Nat) (a : Nat) (b : Bool) :
    ms.foldl (fun p m => (Nat.min p.1 m, true)) (a, b)
      = (ms.foldl Nat.min a, b || !ms.isEmpty) := by
  induction ms generalizing a b with
  | nil => simp
  | cons m rest ih => simp [ih]

/-- The source scan equals the fold over the concatenation of all
expansions, and its flag says the concatenation is non-empty. -/
theorem srcScan_eq (fs : String → List Nat) (patterns : List String) :
    srcScan fs patterns
      = (((patterns.map fs).flatten).foldl Nat.max 0, !((patterns.map fs).flatten).isEmpty) := by
  suffices h : ∀ (a : Nat) (b : Bool),
      patterns.foldl (fun acc pat => (fs pat).foldl (fun p m => (Nat.max p.1 m, true)) acc)
        (a, b)
      = (((patterns.map fs).flatten).foldl Nat.max a, b || !((patterns.map fs).flatten).isEmpty) by
    simpa [srcScan] using h 0 false
  induction patterns with
  | nil => simp
  | cons pat rest ih =>
    intro a b
    simp only [List.foldl_cons, maxPairFold, ih, List.map_cons, List.flatten_cons,
      List.foldl_append, isEmpty_append_eq]
    simp only [Prod.mk.injEq, true_and]
    cases b <;> cases h1 : (fs pat).isEmpty <;>
      cases h2 : ((rest.map fs).flatten).isEmpty <;> simp [h1, h2]

/-- The output scan equals the fold over the concatenation of all
expansions seeded with `now`, and its flag says the concatenation is
non-empty. -/
theorem outScan_eq (fs : String → List Nat) (now : Nat) (patterns : List String) :
    outScan fs now patterns
      = (((patterns.map fs).flatten).foldl Nat.min now, !((patterns.map fs).flatten).isEmpty) := by
  suffices h : ∀ (a : Nat) (b : Bool),
      patterns.foldl (fun acc pat => (fs pat).foldl (fun p m => (Nat.min p.1 m, true)) acc)
        (a, b)
      = (((patterns.map fs).flatten).foldl Nat.min a, b || !((patterns.map fs).flatten).isEmpty) by
    simpa [outScan] using h now false
  induction patterns with
  | nil => simp
  | cons pat rest ih =>
    intro a b
    simp only [List.foldl_cons, minPairFold, ih, List.map_cons, List.flatten_cons,
      List.foldl_append, isEmpty_append_eq]
    simp only [Prod.mk.injEq, true_and]
    cases b <;> cases h1 : (fs pat).isEmpty <;>
      cases h2 : ((rest.map fs).flatten).isEmpty <;> simp [h1, h2]

theorem foldl_max_lt_iff (l : List Nat) (a x : Nat) :
    l.foldl Nat.max a < x ↔ a < x ∧ ∀ s ∈ l, s < x := by
  induction l generalizing a with
  | nil => simp
  | cons m rest ih =>
    simp only [List.foldl_cons, ih, Nat.max_lt, List.mem_cons]
    constructor
    · rintro ⟨⟨h1, h2⟩, h3⟩
      exact ⟨h1, fun s hs => hs.elim (fun he => he ▸ h2) (h3 s)⟩
    · rintro ⟨h1, h2⟩
      exact ⟨⟨h1, h2 m (Or.inl rfl)⟩, fun s hs => h2 s (Or.inr hs)⟩

theorem lt_foldl_min_iff (l : List Nat) (a x : Nat) :
    x < l.foldl Nat.min a ↔ x < a ∧ ∀ o ∈ l, x < o := by
  induction l generalizing a with
  | nil => simp
  | cons m rest ih =>
    simp only [List.foldl_cons, ih, Nat.lt_min, List.mem_cons]
    constructor
    · rintro ⟨⟨h1, h2⟩, h3⟩
      exact ⟨h1, fun o ho => ho.elim (fun he => he ▸ h2) (h3 o)⟩
    · rintro ⟨h1, h2⟩
      exact ⟨⟨h1, h2 m (Or.inl rfl)⟩, fun o ho => h2 o (Or.inr ho)⟩

/-- The freshness decision, characterised: both expansions non-empty and
every source mtime strictly below the current time and below every output
mtime. -/
theorem isUpToDate_iff (now : Nat) (fs : String → List Nat)
    (sources outputs : List String) :
    isUpToDate now fs sources outputs = true ↔
      ((sources.map fs).flatten ≠ [] ∧ (outputs.map fs).flatten ≠ [] ∧
        ∀ s ∈ (sources.map fs).flatten, s < now ∧ ∀ o ∈ (outputs.map fs).flatten, s < o) := by
  simp only [isUpToDate, srcScan_eq, outScan_eq, Bool.and_eq_true, Bool.not_eq_eq_eq_not,
    Bool.not_true, decide_eq_true_eq]
  constructor
  · rintro ⟨⟨hs, ho⟩, hlt⟩
    have hs' : (sources.map fs).flatten ≠ [] := by
      intro h; rw [h] at hs; simp at hs
    have ho' : (outputs.map fs).flatten ≠ [] := by
      intro h; rw [h] at ho; simp at ho
    refine ⟨hs', ho', ?_⟩
    rw [foldl_max_lt_iff] at hlt
    intro s hsmem
    have := hlt.2 s hsmem
    rw [lt_foldl_min_iff] at this
    exact this
  · rintro ⟨hs, ho, hall⟩
    have hs' : ((sources.map fs).flatten).isEmpty = false := by
      cases h : (sources.map fs).flatten with
      | nil => exact absurd h hs
      | cons a l => rfl
    have ho' : ((outputs.map fs).flatten).isEmpty = false := by
      cases h : (outputs.map fs).flatten with
      | nil => exact absurd h ho
      | cons a l => rfl
    refine ⟨⟨hs', ho'⟩, ?_⟩
    rw [foldl_max_lt_iff]
    constructor
    · rcases List.exists_mem_of_ne_nil _ hs with ⟨s, hsm⟩
      have h1 := hall s hsm
      rw [lt_foldl_min_iff]
      exact ⟨Nat.lt_of_le_of_lt (Nat.zero_le s) h1.1,
        fun o ho2 => Nat.lt_of_le_of_lt (Nat.zero_le s) (h1.2 o ho2)⟩
    · intro s hsm
      rw [lt_foldl_min_iff]
      exact hall s hsm

/-- Concrete mtime oracle for the C1 counterexample. -/
def cexFs : String → List Nat :=
  fun p => if p = "s" then [5] else if p = "o" then [10] else []

/-- C1 counterexample: one source file with mtime 5, one output file with
mtime 10, checked at current time 3 (the output is dated in the future).
The maximum source mtime (5) is strictly below the minimum output mtime
(10), so the claim requires the task to be skipped, but `is_up_to_date`
returns `false` because `oldest_out` is seeded with `SystemTime::now()`. -/
theorem isUpToDate_future_output_cex :
    ((["s"].map cexFs).flatten = [5] ∧ (["o"].map cexFs).flatten = [10] ∧ (5 : Nat) < 10) ∧
    isUpToDate 3 cexFs ["s"] ["o"] = false := by
  exact ⟨⟨rfl, rfl, by decide⟩, rfl⟩

/-! ## Task specs (src/runner/task.rs)

`RunnerTask` is the untagged union of the three task shapes; the `Full`
shape is a structure whose field defaults mirror the serde defaults.
Note the struct has no retry or retry-delay field.
-/

structure FullTask where
  cmds : List String := []
  deps : List String := []
  parallel : Bool := false
  description : Option String := none
  run_if : Option String := none
  skip_if : Option String := none
  sources : Option (List String) := none
  outputs : Option (List String) := none
  windows : Option (List String) := none
  linux : Option (List String) := none
  macos : Option (List String) := none
  ignore_failure : Bool := false
  timeout : Option Nat := none
  deriving DecidableEq

inductive RunnerTask where
  | single (cmd : String)
  | cmdList (cmds : List String)
  | full (t : FullTask)
  deriving DecidableEq

/-! Accessors mirroring the destructuring in `recursive_runner`
(src/runner/mod.rs lines 103-108); `run_if`, `skip_if` and `description`
are dropped there by the `..` pattern. -/

def taskCmds : RunnerTask → List String
  | .single c => [c]
  | .cmdList cs => cs
  | .full t => t.cmds

def taskDeps : RunnerTask → List String
  | .full t => t.deps
  | _ => []

def taskParallel : RunnerTask → Bool
  | .full t => t.parallel
  | _ => false

def taskSources : RunnerTask → Option (List String)
  | .full t => t.sources
  | _ => none

def taskOutputs : RunnerTask → Option (List String)
  | .full t => t.outputs
  | _ => none

def taskWindows : RunnerTask → Option (List String)
  | .full t => t.windows
  | _ => none

def taskLinux : RunnerTask → Option (List String)
  | .full t => t.linux
  | _ => none

def taskMacos : RunnerTask → Option (List String)
  | .full t => t.macos
  | _ => none

def taskIgnoreFailure : RunnerTask → Bool
  | .full t => t.ignore_failure
  | _ => false

/-! ## The runner (src/runner/mod.rs) -/

/-- Failure modes of `recursive_runner`.  `depFailed` carries the
per-dependency errors collected in the parallel branch (the source
formats them into strings before aggregating). -/
inductive RunErr where
  | cycle (task : String)
  | notFound (task : String)
  | depFailed (inner : List RunErr)
  | noOsCmds (task : String)
  | cmdFailed (task cmd : String) (code : Int)
  | outOfFuel

/-- An error that reports a circular dependency, possibly wrapped in the
parallel-dependency aggregation. -/
inductive IsCycleErr : RunErr → Prop
  | cycle (t : String) : IsCycleErr (.cycle t)
  | dep {e : RunErr} {es : List RunErr} : e ∈ es → IsCycleErr e →
      IsCycleErr (.depFailed es)

/-- Model of `CallStack::push` (src/runner/mod.rs lines 69-75): inserting
an already-present name is a cycle error. -/
def stackPush (name : String) (stack : List String) :
    Except RunErr (List String) :=
  if name ∈ stack then .error (.cycle name) else .ok (name :: stack)

/-- `HashMap::get` on the `[runner]` section, modelled on an association
list (first match wins; task names are unique). -/
def lookupTask (tasks : List (String × RunnerTask)) (name : String) : Option RunnerTask :=
  (tasks.find? (fun p => p.1 = name)).map Prod.snd

/-- OS command selection (src/runner/mod.rs lines 166-176). -/
def osSelect (os : String) (cmds : List String)
    (w l m : Option (List String)) : List String :=
  match (if os = "windows" then w else if os = "linux" then l
         else if os = "macos" then m else none) with
  | some c => c
  | none => cmds

/-- The oracles and configuration surrounding a run.  `exec` abstracts
`run_command_line` (the embedded shell): it maps a task name and an
expanded command string to the exit code observed. -/
structure RunnerEnv where
  tasks : List (String × RunnerTask)
  env : String → Option String
  os : String
  fs : String → List Nat
  now : Nat
  exec : String → String → Int

/-- A run result: overall status plus the trace of executed commands,
each recorded as (task name, expanded command string). -/
abbrev RunRes := Except RunErr Unit × List (String × String)

def exceptErr : Except RunErr Unit → Option RunErr
  | .error e => some e
  | .ok _ => none

/-- The command loop of `recursive_runner` (src/runner/mod.rs lines
219-336): expand, skip under dry-run, execute, and on a non-zero code
either warn and continue (`ignore_failure`) or fail the task. -/
def runCmds (exec : String → String → Int) (envF : String → Option String)
    (dryRun : Bool) (name : String) (ign : Bool) (args : List String) :
    List String → RunRes
  | [] => (.ok (), [])
  | cmd :: rest =>
    let finalCmd := expandCommand cmd args envF
    if dryRun then runCmds exec envF dryRun name ign args rest
    else
      let code := exec name finalCmd
      if code = 0 then
        let r := runCmds exec envF dryRun name ign args rest
        (r.1, (name, finalCmd) :: r.2)
      else if ign then
        let r := runCmds exec envF dryRun name ign args rest
        (r.1, (name, finalCmd) :: r.2)
      else
        (.error (.cmdFailed name finalCmd code), [(name, finalCmd)])

/-- One sequential-dependency step: on an error the accumulator is kept
(the `?` operator stops the loop), otherwise the dependency runs and its
trace is appended. -/
def seqStep (rec : String → List String → List String → Bool → RunRes)
    (stack1 : List String) (capture : Bool) (acc : RunRes) (d : String) : RunRes :=
  match acc.1 with
  | .error _ => acc
  | .ok _ =>
    let r := rec d stack1 [] capture
    (r.1, acc.2 ++ r.2)

/-- The dependency phase of one `recursive_runner` frame (src/runner/mod.rs
lines 110-150): parallel dependencies each run on a snapshot of the stack
with buffered capture and their errors are aggregated; sequential
dependencies share the stack and stop at the first error. -/
def depPhase (rec : String → List String → List String → Bool → RunRes)
    (task : RunnerTask) (stack1 : List String) (capture : Bool) : RunRes :=
  let deps := taskDeps task
  if deps.isEmpty then (.ok (), [])
  else if taskParallel task then
    let rs := deps.map (fun d => rec d stack1 [] true)
    let errs := rs.filterMap (fun r => exceptErr r.1)
    if errs.isEmpty then (.ok (), (rs.map Prod.snd).flatten)
    else (.error (.depFailed errs), (rs.map Prod.snd).flatten)
  else
    deps.foldl (seqStep rec stack1 capture) (.ok (), [])

/-- The freshness decision of one frame (src/runner/mod.rs lines 152-161):
checked only when both `sources` and `outputs` are declared. -/
def freshCheck (fs : String → List Nat) (now : Nat) (task : RunnerTask) : Bool :=
  match taskSources task, taskOutputs task with
  | some s, some o => isUpToDate now fs s o
  | _, _ => false

/-- Everything after a successful dependency phase: freshness skip, OS
selection and its bail-out, then the command loop. -/
def tailPhase (envF : String → Option String) (os : String)
    (fs : String → List Nat) (now : Nat) (exec : String → String → Int)
    (dryRun : Bool) (task : RunnerTask) (name : String) (args : List String)
    (tr : List (String × String)) : RunRes :=
  if freshCheck fs now task then (.ok (), tr)
  else
    let cmds := osSelect os (taskCmds task) (taskWindows task) (taskLinux task)
      (taskMacos task)
    let hasOs := (taskWindows task).isSome || (taskLinux task).isSome ||
      (taskMacos task).isSome
    if cmds.isEmpty && hasOs then (.error (.noOsCmds name), tr)
    else
      let r := runCmds exec envF dryRun name (taskIgnoreFailure task) args cmds
      (r.1, tr ++ r.2)

/-- The body of one `recursive_runner` frame after the push and the task
lookup: dependencies (parallel with snapshot stacks, or sequential),
freshness check, OS selection, command loop.  The recursive call is the
parameter `rec`. -/
def runTaskBody (rec : String → List String → List String → Bool → RunRes)
    (envF : String → Option String) (os : String) (fs : String → List Nat)
    (now : Nat) (exec : String → String → Int) (dryRun : Bool)
    (task : RunnerTask) (name : String) (stack1 : List String)
    (args : List String) (capture : Bool) : RunRes :=
  match depPhase rec task stack1 capture with
  | (.error e, tr) => (.error e, tr)
  | (.ok _, tr) => tailPhase envF os fs now exec dryRun task name args tr

/-- Model of `recursive_runner` (src/runner/mod.rs lines 88-346).  The
fuel argument only bounds the recursion depth; any fuel above the number
of tasks not yet on the stack is sufficient. -/
def runTask (R : RunnerEnv) (dryRun : Bool) :
    Nat → String → List String → List String → Bool → RunRes
  | 0, _, _, _, _ => (.error .outOfFuel, [])
  | fuel + 1, name, stack, args, capture =>
    match stackPush name stack with
    | .error e => (.error e, [])
    | .ok stack1 =>
      match lookupTask R.tasks name with
      | none => (.error (.notFound name), [])
      | some task =>
        runTaskBody (runTask R dryRun fuel) R.env R.os R.fs R.now R.exec dryRun
          task name stack1 args capture

/-! ## The dependency graph and cycle detection (C2) -/

/-- The dependency edge relation of a task map: `u` depends on `v`. -/
def depEdge (P : List (String × RunnerTask)) (u v : String) : Prop :=
  ∃ t, lookupTask P u = some t ∧ v ∈ taskDeps t

/-- The declared task names. -/
def taskKeys (P : List (String × RunnerTask)) : List String := P.map Prod.fst

/-- Every dependency of every task is itself a declared task. -/
def ClosedGraph (P : List (String × RunnerTask)) : Prop :=
  ∀ p ∈ P, ∀ d ∈ taskDeps p.2, d ∈ taskKeys P

/-- The OS-selection bail-out of src/runner/mod.rs lines 178-181 does not
fire for this task on this OS. -/
def OsOk (os : String) (t : RunnerTask) : Prop :=
  ((osSelect os (taskCmds t) (taskWindows t) (taskLinux t) (taskMacos t)).isEmpty &&
    ((taskWindows t).isSome || (taskLinux t).isSome || (taskMacos t).isSome)) = false

/-- Number of declared tasks not yet on the call stack; the fuel needed by
a frame is bounded by it. -/
def stackMeasure (P : List (String × RunnerTask)) (stack : List String) : Nat :=
  ((taskKeys P).toFinset \ stack.toFinset).card

theorem lookupTask_mem {P : List (String × RunnerTask)} {n : String} {t : RunnerTask}
    (h : lookupTask P n = some t) : (n, t) ∈ P := by
  simp only [lookupTask, Option.map_eq_some'] at h
  obtain ⟨p, hp, hpt⟩ := h
  have hmem := List.mem_of_find?_eq_some hp
  have hkey := List.find?_some hp
  simp only [decide_eq_true_eq] at hkey
  obtain ⟨p1, p2⟩ := p
  simp only at hkey hpt
  rw [hkey, hpt] at hmem
  exact hmem

theorem lookupTask_mem_keys {P : List (String × RunnerTask)} {n : String}
    {t : RunnerTask} (h : lookupTask P n = some t) : n ∈ taskKeys P := by
  have := lookupTask_mem h
  exact List.mem_map.mpr ⟨(n, t), this, rfl⟩

theorem lookupTask_of_mem_keys {P : List (String × RunnerTask)} {n : String}
    (h : n ∈ taskKeys P) : ∃ t, lookupTask P n = some t := by
  obtain ⟨p, hp, hpn⟩ := List.mem_map.mp h
  have hsome : (P.find? (fun q => q.1 = n)).isSome := by
    rw [List.find?_isSome]
    exact ⟨p, hp, by simp [hpn]⟩
  obtain ⟨q, hq⟩ := Option.isSome_iff_exists.mp hsome
  exact ⟨q.2, by simp [lookupTask, hq]⟩

theorem transGen_cases_head {α : Type} {r : α → α → Prop} {a b : α}
    (h : Relation.TransGen r a b) : r a b ∨ ∃ c, r a c ∧ Relation.TransGen r c b := by
  induction h using Relation.TransGen.head_induction_on with
  | base h => exact Or.inl h
  | ih h' ht _ => exact Or.inr ⟨_, h', ht⟩

theorem filterMap_nil_forall {α β : Type} (f : α → Option β) (l : List α)
    (h : l.filterMap f = []) : ∀ a ∈ l, f a = none := by
  induction l with
  | nil => intro a ha; cases ha
  | cons a l ih =>
    rw [List.filterMap_cons] at h
    cases hfa : f a with
    | none =>
      rw [hfa] at h
      intro b hb
      rcases hb with _ | hb
      · exact hfa
      · exact ih h b (by assumption)
    | some b => rw [hfa] at h; cases h

theorem seqFold_frozen (rec : String → List String → List String → Bool → RunRes)
    (stack1 : List String) (capture : Bool) (deps : List String) (acc : RunRes)
    (e : RunErr) (h : acc.1 = .error e) :
    deps.foldl (seqStep rec stack1 capture) acc = acc := by
  induction deps with
  | nil => rfl
  | cons d ds ih =>
    rw [List.foldl_cons]
    have hstep : seqStep rec stack1 capture acc d = acc := by
      simp only [seqStep, h]
    rw [hstep, ih]

theorem seqFold_ok (rec : String → List String → List String → Bool → RunRes)
    (stack1 : List String) (capture : Bool) (deps : List String) :
    ∀ (acc : RunRes), (deps.foldl (seqStep rec stack1 capture) acc).1 = .ok () →
      acc.1 = .ok () ∧ ∀ d ∈ deps, (rec d stack1 [] capture).1 = .ok () := by
  induction deps with
  | nil =>
    intro acc h
    exact ⟨h, fun d hd => absurd hd (List.not_mem_nil d)⟩
  | cons d ds ih =>
    intro acc h
    rw [List.foldl_cons] at h
    cases hacc : acc.1 with
    | error e =>
      have hstep : seqStep rec stack1 capture acc d = acc := by
        simp only [seqStep, hacc]
      rw [hstep, seqFold_frozen _ _ _ _ _ _ hacc, hacc] at h
      cases h
    | ok u =>
      have hstep : seqStep rec stack1 capture acc d
          = ((rec d stack1 [] capture).1, acc.2 ++ (rec d stack1 [] capture).2) := by
        simp only [seqStep, hacc]
      rw [hstep] at h
      cases hr : (rec d stack1 [] capture).1 with
      | error e =>
        rw [seqFold_frozen _ _ _ _ _ e (by simpa using hr)] at h
        simp [hr] at h
      | ok v =>
        obtain ⟨_, hrest⟩ := ih _ h
        refine ⟨rfl, fun b hb => ?_⟩
        rcases hb with _ | hb
        · rw [hr]
        · exact hrest b (by assumption)

theorem seqFold_err (rec : String → List String → List String → Bool → RunRes)
    (stack1 : List String) (capture : Bool) (deps : List String) :
    ∀ (acc : RunRes) (e : RunErr),
      (deps.foldl (seqStep rec stack1 capture) acc).1 = .error e →
      acc.1 = .error e ∨ ∃ d ∈ deps, (rec d stack1 [] capture).1 = .error e := by
  induction deps with
  | nil => intro acc e h; exact Or.inl h
  | cons d ds ih =>
    intro acc e h
    rw [List.foldl_cons] at h
    cases hacc : acc.1 with
    | error e' =>
      have hstep : seqStep rec stack1 capture acc d = acc := by
        simp only [seqStep, hacc]
      rw [hstep, seqFold_frozen _ _ _ _ _ _ hacc] at h
      rw [hacc] at h
      exact Or.inl h
    | ok u =>
      have hstep : seqStep rec stack1 capture acc d
          = ((rec d stack1 [] capture).1, acc.2 ++ (rec d stack1 [] capture).2) := by
        simp only [seqStep, hacc]
      rw [hstep] at h
      rcases ih _ e h with hfst | ⟨b, hb, hberr⟩
      · exact Or.inr ⟨d, List.mem_cons_self d ds, hfst⟩
      · exact Or.inr ⟨b, List.mem_cons_of_mem d hb, hberr⟩

theorem seqFold_trace (rec : String → List String → List String → Bool → RunRes)
    (stack1 : List String) (capture : Bool) (deps : List String) :
    ∀ (acc : RunRes) (t cmd : String),
      (t, cmd) ∈ (deps.foldl (seqStep rec stack1 capture) acc).2 →
      (t, cmd) ∈ acc.2 ∨ ∃ d ∈ deps, (t, cmd) ∈ (rec d stack1 [] capture).2 := by
  induction deps with
  | nil => intro acc t cmd h; exact Or.inl h
  | cons d ds ih =>
    intro acc t cmd h
    rw [List.foldl_cons] at h
    cases hacc : acc.1 with
    | error e =>
      have hstep : seqStep rec stack1 capture acc d = acc := by
        simp only [seqStep, hacc]
      rw [hstep, seqFold_frozen _ _ _ _ _ _ hacc] at h
      exact Or.inl h
    | ok u =>
      have hstep : seqStep rec stack1 capture acc d
          = ((rec d stack1 [] capture).1, acc.2 ++ (rec d stack1 [] capture).2) := by
        simp only [seqStep, hacc]
      rw [hstep] at h
      rcases ih _ t cmd h with hmem | ⟨b, hb, hbm⟩
      · rcases List.mem_append.mp hmem with h1 | h2
        · exact Or.inl h1
        · exact Or.inr ⟨d, List.mem_cons_self d ds, h2⟩
      · exact Or.inr ⟨b, List.mem_cons_of_mem d hb, hbm⟩

theorem depPhase_ok_deps (rec : String → List String → List String → Bool → RunRes)
    (task : RunnerTask) (stack1 : List String) (capture : Bool)
    (h : (depPhase rec task stack1 capture).1 = .ok ()) :
    ∀ d ∈ taskDeps task, ∃ c', (rec d stack1 [] c').1 = .ok () := by
  intro d hd
  simp only [depPhase] at h
  have hemp : (taskDeps task).isEmpty = false := by
    cases he : taskDeps task with
    | nil => rw [he] at hd; cases hd
    | cons x xs => rfl
  rw [hemp] at h
  simp only [Bool.false_eq_true, if_false] at h
  by_cases hpar : taskParallel task
  · rw [hpar] at h
    simp only [if_true] at h
    by_cases herrs :
        ((taskDeps task).map (fun d => rec d stack1 [] true)).filterMap
          (fun r => exceptErr r.1) = []
    · have hall := filterMap_nil_forall _ _ herrs
      have hmem : rec d stack1 [] true ∈
          (taskDeps task).map (fun d => rec d stack1 [] true) :=
        List.mem_map.mpr ⟨d, hd, rfl⟩
      have := hall _ hmem
      refine ⟨true, ?_⟩
      cases hr : (rec d stack1 [] true).1 with
      | error e => rw [hr] at this; simp [exceptErr] at this
      | ok u => rfl
    · rw [if_neg (fun hc => herrs (List.isEmpty_iff.mp hc))] at h
      simp at h
  · simp only [hpar, Bool.false_eq_true, if_false] at h
    obtain ⟨_, hall⟩ := seqFold_ok _ _ _ _ _ h
    exact ⟨capture, hall d hd⟩

theorem depPhase_trace (rec : String → List String → List String → Bool → RunRes)
    (task : RunnerTask) (stack1 : List String) (capture : Bool) (t cmd : String)
    (h : (t, cmd) ∈ (depPhase rec task stack1 capture).2) :
    ∃ d ∈ taskDeps task, ∃ c', (t, cmd) ∈ (rec d stack1 [] c').2 := by
  simp only [depPhase] at h
  by_cases hemp : (taskDeps task).isEmpty
  · rw [hemp] at h; simp at h
  · rw [Bool.not_eq_true] at hemp
    rw [hemp] at h
    simp only [Bool.false_eq_true, if_false] at h
    by_cases hpar : taskParallel task
    · rw [hpar] at h
      simp only [if_true] at h
      have hflat : (t, cmd) ∈
          (((taskDeps task).map (fun d => rec d stack1 [] true)).map Prod.snd).flatten := by
        by_cases herrs :
            (((taskDeps task).map (fun d => rec d stack1 [] true)).filterMap
              (fun r => exceptErr r.1)).isEmpty
        · rwa [if_pos herrs] at h
        · rwa [if_neg herrs] at h
      obtain ⟨l, hl, hml⟩ := List.mem_flatten.mp hflat
      obtain ⟨r, hr, hrl⟩ := List.mem_map.mp hl
      obtain ⟨d, hd, hdr⟩ := List.mem_map.mp hr
      exact ⟨d, hd, true, by rw [hdr]; rw [← hrl] at hml; exact hml⟩
    · simp only [hpar, Bool.false_eq_true, if_false] at h
      rcases seqFold_trace _ _ _ _ _ t cmd h with hnil | ⟨d, hd, hm⟩
      · cases hnil
      · exact ⟨d, hd, capture, hm⟩

theorem runCmds_trace_fst (exec : String → String → Int)
    (envF : String → Option String) (dryRun : Bool) (name : String) (ign : Bool)
    (args : List String) (cmds : List String) (t cmd : String)
    (h : (t, cmd) ∈ (runCmds exec envF dryRun name ign args cmds).2) : t = name := by
  induction cmds with
  | nil => cases h
  | cons c cs ih =>
    unfold runCmds at h
    by_cases hdry : dryRun
    · rw [if_pos hdry] at h; exact ih h
    · rw [if_neg hdry] at h
      by_cases hcode : exec name (expandCommand c args envF) = 0
      · rw [if_pos hcode] at h
        rcases List.mem_cons.mp h with heq | hm
        · exact congrArg Prod.fst heq
        · exact ih hm
      · rw [if_neg hcode] at h
        cases ign with
        | true =>
          simp only [if_true] at h
          rcases List.mem_cons.mp h with heq | hm
          · exact congrArg Prod.fst heq
          · exact ih hm
        | false =>
          simp only [Bool.false_eq_true, if_false] at h
          rcases List.mem_cons.mp h with heq | hm
          · exact congrArg Prod.fst heq
          · cases hm

theorem runCmds_all_zero (exec : String → String → Int)
    (envF : String → Option String) (dryRun : Bool) (name : String) (ign : Bool)
    (args : List String) (hz : ∀ c, exec name c = 0) (cmds : List String) :
    (runCmds exec envF dryRun name ign args cmds).1 = .ok () := by
  induction cmds with
  | nil => rfl
  | cons c cs ih =>
    unfold runCmds
    by_cases hdry : dryRun
    · rw [if_pos hdry]; exact ih
    · rw [if_neg hdry, if_pos (hz _)]
      exact ih

/-- With `ignore_failure` set (and no dry-run), the command loop executes
every command exactly once in order and succeeds, whatever the exit
codes. -/
theorem runCmds_ignore (exec : String → String → Int)
    (envF : String → Option String) (name : String) (args : List String)
    (cmds : List String) :
    runCmds exec envF false name true args cmds
      = (.ok (), cmds.map (fun c => (name, expandCommand c args envF))) := by
  induction cmds with
  | nil => rfl
  | cons c cs ih =>
    unfold runCmds
    by_cases hcode : exec name (expandCommand c args envF) = 0 <;>
      simp [hcode, ih]

theorem tailPhase_trace (envF : String → Option String) (os : String)
    (fs : String → List Nat) (now : Nat) (exec : String → String → Int)
    (dryRun : Bool) (task : RunnerTask) (name : String) (args : List String)
    (tr : List (String × String)) (t cmd : String)
    (h : (t, cmd) ∈ (tailPhase envF os fs now exec dryRun task name args tr).2) :
    (t, cmd) ∈ tr ∨ t = name := by
  unfold tailPhase at h
  by_cases hfresh : freshCheck fs now task
  · rw [if_pos hfresh] at h; exact Or.inl h
  · rw [if_neg hfresh] at h
    by_cases hbail :
        ((osSelect os (taskCmds task) (taskWindows task) (taskLinux task)
            (taskMacos task)).isEmpty &&
          ((taskWindows task).isSome || (taskLinux task).isSome ||
            (taskMacos task).isSome)) = true
    · rw [if_pos hbail] at h; exact Or.inl h
    · rw [if_neg hbail] at h
      rcases List.mem_append.mp h with h1 | h2
      · exact Or.inl h1
      · exact Or.inr (runCmds_trace_fst _ _ _ _ _ _ _ _ _ h2)

/-- Inverting a successful frame: the name was not on the stack, the task
exists, and every dependency ran successfully on the pushed stack. -/
theorem runTask_ok_inv (R : RunnerEnv) (dr : Bool) (fuel : Nat) (n : String)
    (s args : List String) (cap : Bool)
    (h : (runTask R dr fuel n s args cap).1 = .ok ()) :
    n ∉ s ∧ ∃ f' task, fuel = f' + 1 ∧ lookupTask R.tasks n = some task ∧
      ∀ dep ∈ taskDeps task, ∃ c', (runTask R dr f' dep (n :: s) [] c').1 = .ok () := by
  cases fuel with
  | zero => simp [runTask] at h
  | succ f =>
    rw [runTask] at h
    by_cases hmem : n ∈ s
    · simp [stackPush, hmem] at h
    · simp only [stackPush, hmem, if_neg, ite_false] at h
      cases hl : lookupTask R.tasks n with
      | none => rw [hl] at h; simp at h
      | some task =>
        rw [hl] at h
        refine ⟨hmem, f, task, rfl, rfl, ?_⟩
        simp only [runTaskBody] at h
        rcases hdp : depPhase (runTask R dr f) task (n :: s) cap with ⟨res, tr⟩
        rw [hdp] at h
        cases res with
        | error e => simp at h
        | ok u =>
          have hok : (depPhase (runTask R dr f) task (n :: s) cap).1 = .ok () := by
            rw [hdp]
          exact depPhase_ok_deps _ _ _ _ hok

/-- A successful frame proves there is no dependency path from its task
back to anything on its stack (itself included). -/
theorem runTask_ok_no_cycle (R : RunnerEnv) (dr : Bool) :
    ∀ (fuel : Nat) (n : String) (s args : List String) (cap : Bool),
      (runTask R dr fuel n s args cap).1 = .ok () →
      ∀ u ∈ n :: s, ¬ Relation.TransGen (depEdge R.tasks) n u := by
  intro fuel
  induction fuel with
  | zero => intro n s args cap h; simp [runTask] at h
  | succ f ih =>
    intro n s args cap h u hu htg
    obtain ⟨hnmem, f', task, hfe, hlk, hdeps⟩ := runTask_ok_inv R dr (f + 1) n s args cap h
    have hf' : f' = f := by omega
    rw [hf'] at hdeps
    rcases transGen_cases_head htg with hedge | ⟨b, hedge, htg'⟩
    · obtain ⟨t', hlk', hmem⟩ := hedge
      rw [hlk] at hlk'
      injection hlk' with ht'
      subst ht'
      obtain ⟨c', hok⟩ := hdeps u hmem
      exact (runTask_ok_inv R dr f u (n :: s) [] c' hok).1 hu
    · obtain ⟨t', hlk', hmemb⟩ := hedge
      rw [hlk] at hlk'
      injection hlk' with ht'
      subst ht'
      obtain ⟨c', hokb⟩ := hdeps b hmemb
      exact ih b (n :: s) [] c' hokb u (List.mem_cons_of_mem b hu) htg'

/-- Along any dependency path from a successfully-run task there is a
successful frame for every reached task. -/
theorem runTask_ok_descend (R : RunnerEnv) (dr : Bool) {n c : String}
    (hpath : Relation.ReflTransGen (depEdge R.tasks) n c) :
    ∀ (fuel : Nat) (s args : List String) (cap : Bool),
      (runTask R dr fuel n s args cap).1 = .ok () →
      ∃ fuel' s' args' cap', (runTask R dr fuel' c s' args' cap').1 = .ok () := by
  induction hpath using Relation.ReflTransGen.head_induction_on with
  | refl =>
    intro fuel s args cap h
    exact ⟨fuel, s, args, cap, h⟩
  | head hedge _ ih =>
    intro fuel s args cap h
    obtain ⟨hnmem, f', task, hfe, hlk, hdeps⟩ := runTask_ok_inv R dr fuel _ s args cap h
    obtain ⟨t', hlk', hmemb⟩ := hedge
    rw [hlk] at hlk'
    injection hlk' with ht'
    subst ht'
    obtain ⟨c', hokb⟩ := hdeps _ hmemb
    exact ih f' _ [] c' hokb

/-- With a cycle reachable from the entry task, no amount of fuel lets the
run succeed. -/
theorem runTask_cycle_not_ok (R : RunnerEnv) (dr : Bool) {entry c : String}
    (hreach : Relation.ReflTransGen (depEdge R.tasks) entry c)
    (hcyc : Relation.TransGen (depEdge R.tasks) c c)
    (fuel : Nat) (s args : List String) (cap : Bool) :
    (runTask R dr fuel entry s args cap).1 ≠ .ok () := by
  intro h
  obtain ⟨fuel', s', args', cap', hok⟩ := runTask_ok_descend R dr hreach fuel s args cap h
  exact runTask_ok_no_cycle R dr fuel' c s' args' cap' hok c
    (List.mem_cons_self c s') hcyc

/-- Every executed command in the trace belongs to a frame whose task
exists, was not on that frame's stack, and whose dependencies all ran
successfully. -/
theorem runTask_trace_frame (R : RunnerEnv) (dr : Bool) :
    ∀ (fuel : Nat) (n : String) (s args : List String) (cap : Bool) (t cmd : String),
      (t, cmd) ∈ (runTask R dr fuel n s args cap).2 →
      ∃ (s' : List String) (f' : Nat) (task : RunnerTask),
        lookupTask R.tasks t = some task ∧ t ∉ s' ∧
        ∀ dep ∈ taskDeps task, ∃ c', (runTask R dr f' dep (t :: s') [] c').1 = .ok () := by
  intro fuel
  induction fuel with
  | zero => intro n s args cap t cmd h; simp [runTask] at h
  | succ f ih =>
    intro n s args cap t cmd h
    rw [runTask] at h
    by_cases hmem : n ∈ s
    · simp [stackPush, hmem] at h
    · simp only [stackPush, hmem, if_neg, ite_false] at h
      cases hl : lookupTask R.tasks n with
      | none => rw [hl] at h; simp at h
      | some task =>
        rw [hl] at h
        simp only [runTaskBody] at h
        rcases hdp : depPhase (runTask R dr f) task (n :: s) cap with ⟨res, tr⟩
        rw [hdp] at h
        cases res with
        | error e =>
          simp only at h
          have htr : (t, cmd) ∈ (depPhase (runTask R dr f) task (n :: s) cap).2 := by
            rw [hdp]; exact h
          obtain ⟨d, hd, c', hm⟩ := depPhase_trace _ _ _ _ _ _ htr
          exact ih d (n :: s) [] c' t cmd hm
        | ok u =>
          rcases tailPhase_trace _ _ _ _ _ _ _ _ _ _ _ _ h with h1 | h2
          · have htr : (t, cmd) ∈ (depPhase (runTask R dr f) task (n :: s) cap).2 := by
              rw [hdp]; exact h1
            obtain ⟨d, hd, c', hm⟩ := depPhase_trace _ _ _ _ _ _ htr
            exact ih d (n :: s) [] c' t cmd hm
          · subst h2
            refine ⟨s, f, task, hl, hmem, ?_⟩
            have hok : (depPhase (runTask R dr f) task (t :: s) cap).1 = .ok () := by
              rw [hdp]
            exact depPhase_ok_deps _ _ _ _ hok

/-- A task lying on a dependency cycle never has a command in any trace:
its own dependency phase can never succeed. -/
theorem runTask_cycle_task_no_trace (R : RunnerEnv) (dr : Bool) (t : String)
    (hcyc : Relation.TransGen (depEdge R.tasks) t t) :
    ∀ (fuel : Nat) (n : String) (s args : List String) (cap : Bool) (cmd : String),
      (t, cmd) ∉ (runTask R dr fuel n s args cap).2 := by
  intro fuel n s args cap cmd hmem
  obtain ⟨s', f', task, hl, hns, hdeps⟩ :=
    runTask_trace_frame R dr fuel n s args cap t cmd hmem
  rcases transGen_cases_head hcyc with hedge | ⟨b, hedge, htg'⟩
  · obtain ⟨t', hlk', hmemb⟩ := hedge
    rw [hl] at hlk'
    injection hlk' with ht'
    subst ht'
    obtain ⟨c', hok⟩ := hdeps t hmemb
    exact (runTask_ok_inv R dr f' t (t :: s') [] c' hok).1 (List.mem_cons_self t s')
  · obtain ⟨t', hlk', hmemb⟩ := hedge
    rw [hl] at hlk'
    injection hlk' with ht'
    subst ht'
    obtain ⟨c', hok⟩ := hdeps b hmemb
    exact runTask_ok_no_cycle R dr f' b (t :: s') [] c' hok t
      (List.mem_cons_of_mem b (List.mem_cons_self t s')) htg'

theorem stackMeasure_push (P : List (String × RunnerTask)) (n : String)
    (s : List String) (hk : n ∈ taskKeys P) (hns : n ∉ s) :
    stackMeasure P (n :: s) + 1 = stackMeasure P s := by
  have hmem : n ∈ (taskKeys P).toFinset \ s.toFinset :=
    Finset.mem_sdiff.mpr
      ⟨List.mem_toFinset.mpr hk, fun hc => hns (List.mem_toFinset.mp hc)⟩
  have hpos : 0 < ((taskKeys P).toFinset \ s.toFinset).card :=
    Finset.card_pos.mpr ⟨n, hmem⟩
  unfold stackMeasure
  rw [List.toFinset_cons, Finset.sdiff_insert, Finset.card_erase_of_mem hmem]
  omega

/-- The tail of a frame succeeds when the OS bail-out cannot fire and all
exit codes for this task are zero. -/
theorem tailPhase_ok (envF : String → Option String) (os : String)
    (fs : String → List Nat) (now : Nat) (exec : String → String → Int)
    (dr : Bool) (task : RunnerTask) (name : String) (args : List String)
    (tr : List (String × String)) (hos : OsOk os task)
    (hz : ∀ c, exec name c = 0) :
    (tailPhase envF os fs now exec dr task name args tr).1 = .ok () := by
  unfold tailPhase
  by_cases hfresh : freshCheck fs now task
  · rw [if_pos hfresh]
  · rw [if_neg hfresh]
    rw [OsOk] at hos
    rw [if_neg (by rw [hos]; exact Bool.false_ne_true)]
    exact runCmds_all_zero _ _ _ _ _ _ hz _

/-- With a closed graph, no OS bail-outs, all commands succeeding, and
enough fuel, a run either succeeds or fails with a (possibly aggregated)
circular-dependency error. -/
theorem runTask_ok_or_cycle (R : RunnerEnv) (dr : Bool)
    (hcl : ClosedGraph R.tasks) (hos : ∀ p ∈ R.tasks, OsOk R.os p.2)
    (hz : ∀ n c, R.exec n c = 0) :
    ∀ (fuel : Nat) (n : String) (s args : List String) (cap : Bool),
      n ∈ taskKeys R.tasks → stackMeasure R.tasks s < fuel →
      (runTask R dr fuel n s args cap).1 = .ok () ∨
        ∃ e, (runTask R dr fuel n s args cap).1 = .error e ∧ IsCycleErr e := by
  intro fuel
  induction fuel with
  | zero => intro n s args cap hk hme; omega
  | succ f ih =>
    intro n s args cap hk hme
    by_cases hmem : n ∈ s
    · right
      refine ⟨.cycle n, ?_, IsCycleErr.cycle n⟩
      rw [runTask]; simp [stackPush, hmem]
    · obtain ⟨task, hl⟩ := lookupTask_of_mem_keys hk
      have hrun : runTask R dr (f + 1) n s args cap
          = runTaskBody (runTask R dr f) R.env R.os R.fs R.now R.exec dr task n
              (n :: s) args cap := by
        rw [runTask]; simp [stackPush, hmem, hl]
      rw [hrun]
      have htmem : (n, task) ∈ R.tasks := lookupTask_mem hl
      have hme' : stackMeasure R.tasks (n :: s) < f := by
        have := stackMeasure_push R.tasks n s hk hmem; omega
      have hdeps_keys : ∀ d ∈ taskDeps task, d ∈ taskKeys R.tasks :=
        fun d hd => hcl (n, task) htmem d hd
      have hdp : (depPhase (runTask R dr f) task (n :: s) cap).1 = .ok () ∨
          ∃ e, (depPhase (runTask R dr f) task (n :: s) cap).1 = .error e ∧
            IsCycleErr e := by
        simp only [depPhase]
        by_cases hemp : (taskDeps task).isEmpty
        · rw [hemp]; left; rfl
        · rw [Bool.not_eq_true] at hemp
          rw [hemp]
          simp only [Bool.false_eq_true, if_false]
          by_cases hpar : taskParallel task
          · rw [hpar]
            simp only [if_true]
            by_cases herrs :
                ((taskDeps task).map (fun d => runTask R dr f d (n :: s) [] true)).filterMap
                  (fun r => exceptErr r.1) = []
            · rw [herrs]; left; rfl
            · rw [if_neg (fun hc => herrs (List.isEmpty_iff.mp hc))]
              right
              refine ⟨_, rfl, ?_⟩
              obtain ⟨e, he⟩ := List.exists_mem_of_ne_nil _ herrs
              obtain ⟨r, hr, hre⟩ := List.mem_filterMap.mp he
              obtain ⟨d, hd, hdr⟩ := List.mem_map.mp hr
              have hrerr : r.1 = .error e := by
                cases hr1 : r.1 with
                | error e' => rw [hr1] at hre; simp [exceptErr] at hre; rw [hre]
                | ok u => rw [hr1] at hre; simp [exceptErr] at hre
              have hce : IsCycleErr e := by
                rcases ih d (n :: s) [] true (hdeps_keys d hd) hme' with hok | ⟨e', he', hc'⟩
                · rw [← hdr] at hrerr; rw [hok] at hrerr; cases hrerr
                · rw [← hdr] at hrerr
                  rw [he'] at hrerr
                  injection hrerr with heq
                  rw [← heq]; exact hc'
              exact IsCycleErr.dep he hce
          · rw [Bool.not_eq_true] at hpar
            rw [hpar]
            simp only [Bool.false_eq_true, if_false]
            cases hres : ((taskDeps task).foldl
                (seqStep (runTask R dr f) (n :: s) cap) (.ok (), [])).1 with
            | ok u => left; rfl
            | error e =>
              right
              refine ⟨e, rfl, ?_⟩
              rcases seqFold_err _ _ _ _ _ _ hres with hinit | ⟨d, hd, hderr⟩
              · cases hinit
              · rcases ih d (n :: s) [] cap (hdeps_keys d hd) hme' with hok | ⟨e', he', hc'⟩
                · rw [hok] at hderr; cases hderr
                · rw [he'] at hderr
                  injection hderr with heq
                  rw [← heq]; exact hc'
      rcases hdp with hdpok | ⟨e, hdperr, hce⟩
      · left
        unfold runTaskBody
        rcases hdpfull : depPhase (runTask R dr f) task (n :: s) cap with ⟨res, tr⟩
        rw [hdpfull] at hdpok
        simp only at hdpok
        rw [hdpok]
        exact tailPhase_ok _ _ _ _ _ _ _ _ _ _ (hos (n, task) htmem) (hz n)
      · right
        refine ⟨e, ?_, hce⟩
        unfold runTaskBody
        rcases hdpfull : depPhase (runTask R dr f) task (n :: s) cap with ⟨res, tr⟩
        rw [hdpfull] at hdperr
        simp only at hdperr
        rw [hdperr]

/-! ## Single-frame evaluation -/

/-- A frame whose task has no dependencies reduces to the tail phase. -/
theorem runTask_no_deps (R : RunnerEnv) (dr : Bool) (fuel : Nat) (n : String)
    (s args : List String) (cap : Bool) (task : RunnerTask)
    (hl : lookupTask R.tasks n = some task) (hd : taskDeps task = [])
    (hmem : n ∉ s) :
    runTask R dr (fuel + 1) n s args cap
      = tailPhase R.env R.os R.fs R.now R.exec dr task n args [] := by
  rw [runTask]
  simp [stackPush, hmem, hl, runTaskBody, depPhase, hd]

/-- With commands to run and no dry-run, the command loop always records
at least its first command. -/
theorem runCmds_trace_ne_nil (exec : String → String → Int)
    (envF : String → Option String) (name : String) (ign : Bool)
    (args : List String) (cmds : List String) (hne : cmds ≠ []) :
    (runCmds exec envF false name ign args cmds).2 ≠ [] := by
  cases cmds with
  | nil => exact absurd rfl hne
  | cons c cs =>
    unfold runCmds
    simp only [Bool.false_eq_true, if_false]
    by_cases hcode : exec name (expandCommand c args envF) = 0
    · rw [if_pos hcode]; exact List.cons_ne_nil _ _
    · rw [if_neg hcode]
      cases ign with
      | true => simp only [if_true]; exact List.cons_ne_nil _ _
      | false =>
        simp only [Bool.false_eq_true, if_false]
        exact List.cons_ne_nil _ _

/-! ## Gates are never consulted (C4) -/

/-- Clearing the two conditional-execution gates of a task. -/
def stripGates : RunnerTask → RunnerTask
  | .full t => .full { t with run_if := none, skip_if := none }
  | t => t

/-- Clearing the gates of every task of a map. -/
def stripGatesMap (P : List (String × RunnerTask)) : List (String × RunnerTask) :=
  P.map (fun p => (p.1, stripGates p.2))

theorem stripGates_taskCmds (t : RunnerTask) : taskCmds (stripGates t) = taskCmds t := by
  cases t <;> rfl

theorem stripGates_taskDeps (t : RunnerTask) : taskDeps (stripGates t) = taskDeps t := by
  cases t <;> rfl

theorem stripGates_taskParallel (t : RunnerTask) :
    taskParallel (stripGates t) = taskParallel t := by
  cases t <;> rfl

theorem stripGates_taskSources (t : RunnerTask) :
    taskSources (stripGates t) = taskSources t := by
  cases t <;> rfl

theorem stripGates_taskOutputs (t : RunnerTask) :
    taskOutputs (stripGates t) = taskOutputs t := by
  cases t <;> rfl

theorem stripGates_taskWindows (t : RunnerTask) :
    taskWindows (stripGates t) = taskWindows t := by
  cases t <;> rfl

theorem stripGates_taskLinux (t : RunnerTask) :
    taskLinux (stripGates t) = taskLinux t := by
  cases t <;> rfl

theorem stripGates_taskMacos (t : RunnerTask) :
    taskMacos (stripGates t) = taskMacos t := by
  cases t <;> rfl

theorem stripGates_taskIgnoreFailure (t : RunnerTask) :
    taskIgnoreFailure (stripGates t) = taskIgnoreFailure t := by
  cases t <;> rfl

theorem lookupTask_stripGatesMap (P : List (String × RunnerTask)) (n : String) :
    lookupTask (stripGatesMap P) n = (lookupTask P n).map stripGates := by
  unfold lookupTask stripGatesMap
  induction P with
  | nil => rfl
  | cons p ps ih =>
    simp only [List.map_cons, List.find?_cons]
    by_cases hp : p.1 = n
    · simp [hp]
    · simp only [hp, decide_eq_false, cond_false]
      exact ih

/-- The frame body only reads the fields that the destructuring keeps, so
clearing the gates changes nothing. -/
theorem runTaskBody_stripGates
    (rec : String → List String → List String → Bool → RunRes)
    (envF : String → Option String) (os : String) (fs : String → List Nat)
    (now : Nat) (exec : String → String → Int) (dr : Bool) (task : RunnerTask)
    (name : String) (stack1 : List String) (args : List String) (cap : Bool) :
    runTaskBody rec envF os fs now exec dr (stripGates task) name stack1 args cap
      = runTaskBody rec envF os fs now exec dr task name stack1 args cap := by
  unfold runTaskBody depPhase tailPhase freshCheck
  rw [stripGates_taskCmds, stripGates_taskDeps, stripGates_taskParallel,
    stripGates_taskSources, stripGates_taskOutputs, stripGates_taskWindows,
    stripGates_taskLinux, stripGates_taskMacos, stripGates_taskIgnoreFailure]

/-- C4 (amended): `recursive_runner` never evaluates `run_if` or
`skip_if`; clearing both gate fields on every task leaves the run result
and the executed-command trace unchanged, so a task's commands run (or are
skipped) irrespective of the gates. -/
theorem runTask_gates_never_evaluated (R : RunnerEnv) (dr : Bool) :
    ∀ (fuel : Nat) (n : String) (s args : List String) (cap : Bool),
      runTask { R with tasks := stripGatesMap R.tasks } dr fuel n s args cap
        = runTask R dr fuel n s args cap := by
  intro fuel
  induction fuel with
  | zero => intro n s args cap; rfl
  | succ f ih =>
    intro n s args cap
    have hrec : runTask { R with tasks := stripGatesMap R.tasks } dr f
        = runTask R dr f := by
      funext d s' a' c'
      exact ih d s' a' c'
    rw [runTask, runTask]
    by_cases hmem : n ∈ s
    · simp [stackPush, hmem]
    · simp only [stackPush, hmem, ite_false, if_neg]
      have hlk : lookupTask (stripGatesMap R.tasks) n
          = (lookupTask R.tasks n).map stripGates := lookupTask_stripGatesMap _ _
      cases hl : lookupTask R.tasks n with
      | none =>
        rw [hl] at hlk
        simp only [Option.map_none'] at hlk
        rw [hlk]
      | some task =>
        rw [hl] at hlk
        simp only [Option.map_some'] at hlk
        rw [hlk]
        simp only
        rw [hrec]
        exact runTaskBody_stripGates _ _ _ _ _ _ _ _ _ _ _ _

/-- A task map with a `skip_if` gate whose command would exit 0. -/
def gateEnv : RunnerEnv :=
  { tasks := [("t", .full { cmds := ["echo hi"], skip_if := some "check" })],
    env := fun _ => none, os := "linux", fs := fun _ => [], now := 0,
    exec := fun _ _ => 0 }

/-- C4 counterexample: a task declaring `skip_if` whose gate command would
exit 0 still has its commands executed; the gate command itself is never
run (the trace holds exactly the task's command). -/
theorem runTask_skip_if_ignored_cex :
    lookupTask gateEnv.tasks "t"
      = some (.full { cmds := ["echo hi"], skip_if := some "check" }) ∧
    gateEnv.exec "t" "check" = 0 ∧
    runTask gateEnv false 5 "t" [] [] false = (.ok (), [("t", "echo hi")]) :=
  ⟨rfl, rfl, rfl⟩

/-! ## Retry does not exist; a command is attempted once (C3) -/

/-- C3 (amended): the task spec has no retry or retry-delay field and the
runner has no retry loop: a full task with no dependencies, no freshness
declaration and no per-OS lists executes each command exactly once in
declaration order, and with `ignore_failure` set the task succeeds with a
warning no matter what the exit codes are. -/
theorem runTask_single_attempt (R : RunnerEnv) (name : String) (t : FullTask)
    (fuel : Nat) (s args : List String) (cap : Bool)
    (hl : lookupTask R.tasks name = some (.full t))
    (hdeps : t.deps = []) (hsrc : t.sources = none)
    (hw : t.windows = none) (hlin : t.linux = none) (hmac : t.macos = none)
    (hign : t.ignore_failure = true) (hmem : name ∉ s) :
    runTask R false (fuel + 1) name s args cap
      = (.ok (), t.cmds.map (fun c => (name, expandCommand c args R.env))) := by
  rw [runTask_no_deps R false fuel name s args cap (.full t) hl (by simp [taskDeps, hdeps])
    hmem]
  unfold tailPhase
  have hfresh : freshCheck R.fs R.now (.full t) = false := by
    simp [freshCheck, taskSources, hsrc]
  rw [hfresh]
  simp only [Bool.false_eq_true, if_false]
  have hos : osSelect R.os (taskCmds (.full t)) (taskWindows (.full t))
      (taskLinux (.full t)) (taskMacos (.full t)) = t.cmds := by
    simp [osSelect, taskCmds, taskWindows, taskLinux, taskMacos, hw, hlin, hmac]
  rw [hos]
  have hno : ((taskWindows (.full t)).isSome || (taskLinux (.full t)).isSome ||
      (taskMacos (.full t)).isSome) = false := by
    simp [taskWindows, taskLinux, taskMacos, hw, hlin, hmac]
  rw [hno]
  simp only [Bool.and_false, Bool.false_eq_true, if_false]
  rw [show taskIgnoreFailure (.full t) = true by simp [taskIgnoreFailure, hign]]
  rw [runCmds_ignore]
  simp

/-- The flaky scenario of the claim: one command `exit 1`, exit code 1
from the shell, `ignore_failure` set, no retry fields anywhere. -/
def flakyEnv : RunnerEnv :=
  { tasks := [("flaky", .full { cmds := ["exit 1"], ignore_failure := true })],
    env := fun _ => none, os := "linux", fs := fun _ => [], now := 0,
    exec := fun _ _ => 1 }

/-- C3 counterexample: the command is attempted exactly once — the trace
holds a single entry, not the three attempts the claim requires — and the
task still returns success. -/
theorem runTask_flaky_single_attempt_cex :
    flakyEnv.exec "flaky" "exit 1" = 1 ∧
    runTask flakyEnv false 5 "flaky" [] [] false
      = (.ok (), [("flaky", "exit 1")]) ∧
    ([("flaky", "exit 1")] : List (String × String)).length = 1 ∧ (1 : Nat) ≠ 3 :=
  ⟨rfl, rfl, rfl, by decide⟩

/-- Witness for the amended C3 theorem at the flaky instance. -/
theorem runTask_single_attempt_witness :
    runTask flakyEnv false 5 "flaky" [] [] false
      = (.ok (), (["exit 1"] : List String).map
          (fun c => ("flaky", expandCommand c [] flakyEnv.env))) :=
  runTask_single_attempt flakyEnv "flaky"
    { cmds := ["exit 1"], ignore_failure := true } 4 [] [] false rfl rfl rfl rfl rfl
    rfl rfl (by decide)

/-! ## Freshness drives the skip (C1) -/

/-- C1 (amended): `is_up_to_date` succeeds iff both glob expansions are
non-empty and the maximum source mtime is strictly below the minimum of
the output mtimes and the current time (`oldest_out` is seeded with
`SystemTime::now()`, so an output dated in the future is clamped by the
clock); and `recursive_runner` skips the commands of a dependency-free
task declaring both `sources` and `outputs` exactly when `is_up_to_date`
holds. -/
theorem freshness_skip (R : RunnerEnv) (name : String) (t : FullTask)
    (fuel : Nat) (s args : List String) (cap : Bool) (S O : List String)
    (hl : lookupTask R.tasks name = some (.full t))
    (hdeps : t.deps = []) (hsrc : t.sources = some S) (hout : t.outputs = some O)
    (hw : t.windows = none) (hlin : t.linux = none) (hmac : t.macos = none)
    (hcmds : t.cmds ≠ []) (hmem : name ∉ s) :
    (isUpToDate R.now R.fs S O = true ↔
      ((S.map R.fs).flatten ≠ [] ∧ (O.map R.fs).flatten ≠ [] ∧
        ∀ m ∈ (S.map R.fs).flatten, m < R.now ∧ ∀ o ∈ (O.map R.fs).flatten, m < o)) ∧
    ((runTask R false (fuel + 1) name s args cap).2 = [] ↔
      isUpToDate R.now R.fs S O = true) ∧
    (isUpToDate R.now R.fs S O = true →
      runTask R false (fuel + 1) name s args cap = (.ok (), [])) := by
  have hframe := runTask_no_deps R false fuel name s args cap (.full t) hl
    (by simp [taskDeps, hdeps]) hmem
  have hfresh : freshCheck R.fs R.now (.full t) = isUpToDate R.now R.fs S O := by
    simp [freshCheck, taskSources, taskOutputs, hsrc, hout]
  refine ⟨isUpToDate_iff R.now R.fs S O, ?_, ?_⟩
  · rw [hframe]
    unfold tailPhase
    rw [hfresh]
    cases hu : isUpToDate R.now R.fs S O with
    | true => simp
    | false =>
      simp only [Bool.false_eq_true, if_false, iff_false]
      have hos : osSelect R.os (taskCmds (.full t)) (taskWindows (.full t))
          (taskLinux (.full t)) (taskMacos (.full t)) = t.cmds := by
        simp [osSelect, taskCmds, taskWindows, taskLinux, taskMacos, hw, hlin, hmac]
      rw [hos]
      have hno : ((taskWindows (.full t)).isSome || (taskLinux (.full t)).isSome ||
          (taskMacos (.full t)).isSome) = false := by
        simp [taskWindows, taskLinux, taskMacos, hw, hlin, hmac]
      rw [hno]
      simp only [Bool.and_false, Bool.false_eq_true, if_false, List.nil_append]
      exact runCmds_trace_ne_nil R.exec R.env name _ args t.cmds hcmds
  · intro hu
    rw [hframe]
    unfold tailPhase
    rw [hfresh, hu]
    simp

/-- A concrete fresh scenario for the C1 witness: one source at mtime 10,
one output at mtime 20, current time 100. -/
def freshTask : FullTask :=
  { cmds := ["cc"], sources := some ["src"], outputs := some ["out"] }

def freshEnv : RunnerEnv :=
  { tasks := [("build", .full freshTask)],
    env := fun _ => none, os := "linux",
    fs := fun p => if p = "src" then [10] else if p = "out" then [20] else [],
    now := 100, exec := fun _ _ => 0 }

/-- Witness for the amended C1 theorem at the fresh scenario. -/
theorem freshness_skip_witness :
    (isUpToDate freshEnv.now freshEnv.fs ["src"] ["out"] = true ↔
      (((["src"] : List String).map freshEnv.fs).flatten ≠ [] ∧
        ((["out"] : List String).map freshEnv.fs).flatten ≠ [] ∧
        ∀ m ∈ ((["src"] : List String).map freshEnv.fs).flatten, m < freshEnv.now ∧
          ∀ o ∈ ((["out"] : List String).map freshEnv.fs).flatten, m < o)) ∧
    ((runTask freshEnv false 5 "build" [] [] false).2 = [] ↔
      isUpToDate freshEnv.now freshEnv.fs ["src"] ["out"] = true) ∧
    (isUpToDate freshEnv.now freshEnv.fs ["src"] ["out"] = true →
      runTask freshEnv false 5 "build" [] [] false = (.ok (), [])) :=
  freshness_skip freshEnv "build" freshTask 4 [] [] false
    ["src"] ["out"] (by decide) rfl rfl rfl rfl rfl rfl (by decide) (by decide)

/-- C2: pushing a name already on the call stack is exactly what raises
the cycle error; and for every closed task graph with a dependency cycle
reachable from the entry task (commands all succeeding, no OS bail-outs,
enough fuel), the run fails with a circular-dependency error — possibly
wrapped in the parallel-dependency aggregation — and no command of any
task lying on a cycle (in particular the task whose re-push closes it, and
anything after it) is ever executed. -/
theorem cycle_detection_and_no_execution :
    (∀ (t : String) (s : List String),
        (t ∈ s → stackPush t s = .error (.cycle t)) ∧
        (t ∉ s → stackPush t s = .ok (t :: s)))
    ∧ ∀ (R : RunnerEnv) (dr : Bool) (fuel : Nat) (entry : String)
        (args : List String) (cap : Bool),
        ClosedGraph R.tasks → (∀ p ∈ R.tasks, OsOk R.os p.2) →
        (∀ n c, R.exec n c = 0) → entry ∈ taskKeys R.tasks →
        stackMeasure R.tasks [] < fuel →
        (∃ c, Relation.ReflTransGen (depEdge R.tasks) entry c ∧
          Relation.TransGen (depEdge R.tasks) c c) →
        (∃ e, (runTask R dr fuel entry [] args cap).1 = .error e ∧ IsCycleErr e)
        ∧ ∀ t, Relation.TransGen (depEdge R.tasks) t t →
            ∀ cmd, (t, cmd) ∉ (runTask R dr fuel entry [] args cap).2 := by
  constructor
  · intro t s
    constructor
    · intro h; simp [stackPush, h]
    · intro h; simp [stackPush, h]
  · intro R dr fuel entry args cap hcl hos hz hk hme hcyc
    obtain ⟨c, hreach, hcc⟩ := hcyc
    constructor
    · rcases runTask_ok_or_cycle R dr hcl hos hz fuel entry [] args cap hk hme with
        hok | hcycerr
      · exact absurd hok (runTask_cycle_not_ok R dr hreach hcc fuel [] args cap)
      · exact hcycerr
    · intro t htc cmd
      exact runTask_cycle_task_no_trace R dr t htc fuel entry [] args cap cmd

/-- The two-task cycle of the spec scenario: `a.deps = [b]`,
`b.deps = [a]`. -/
def cycEnv : RunnerEnv :=
  { tasks := [("a", .full { deps := ["b"] }), ("b", .full { deps := ["a"] })],
    env := fun _ => none, os := "linux", fs := fun _ => [], now := 0,
    exec := fun _ _ => 0 }

/-- Witness for the C2 theorem on the two-task cycle. -/
theorem cycle_detection_witness :
    (∃ e, (runTask cycEnv false 3 "a" [] [] false).1 = .error e ∧ IsCycleErr e)
    ∧ ∀ t, Relation.TransGen (depEdge cycEnv.tasks) t t →
        ∀ cmd, (t, cmd) ∉ (runTask cycEnv false 3 "a" [] [] false).2 :=
  (cycle_detection_and_no_execution.2 cycEnv false 3 "a" [] false
    (by unfold ClosedGraph taskKeys; decide)
    (by unfold OsOk; decide)
    (fun _ _ => rfl)
    (by unfold taskKeys; decide)
    (by unfold stackMeasure taskKeys; decide)
    ⟨"a", Relation.ReflTransGen.refl, by
      have hab : depEdge cycEnv.tasks "a" "b" :=
        ⟨.full { deps := ["b"] }, by decide, by decide⟩
      have hba : depEdge cycEnv.tasks "b" "a" :=
        ⟨.full { deps := ["a"] }, by decide, by decide⟩
      exact Relation.TransGen.head hab (Relation.TransGen.single hba)⟩)

/-! ## Log writer environment snapshot (src/logger.rs lines 74-86)

The env map is an association list with unique keys; `Vec::sort` on the
collected keys is modelled by insertion sort, which produces the same
(unique) sorted arrangement.
-/

/-- First-match lookup on an association list (the model of `HashMap`
indexing). -/
def envLookup (l : List (String × String)) (k : String) : Option String :=
  (l.find? (fun p => p.1 = k)).map Prod.snd

/-- The identity settings relevant to `write_log`; `secret_patterns` is
parsed and merged by the config loader but, as the theorems below show,
never consulted when redacting. -/
structure LogConfig where
  secret_patterns : Option (List String) := none
  log_plain : Option Bool := none

/-- Rust `str::to_uppercase`, modelled on the char list (`Char.toUpper`
agrees with it on ASCII keys). -/
def strToUpper (s : String) : String := String.mk (s.toList.map Char.toUpper)

/-- The redaction decision of `write_log`: the uppercased key contains one
of the default keywords KEY, TOKEN, PASS, SECRET. -/
def redactKey (k : String) : Bool :=
  let u := strToUpper k
  strContains u "KEY" || strContains u "TOKEN" || strContains u "PASS" ||
    strContains u "SECRET"

/-- The environment-snapshot section of a log file: keys sorted, one
`KEY = VALUE` line each, values replaced by `[REDACTED]` exactly when
`redactKey` fires.  The `cfg` argument mirrors the `config` parameter of
`write_log`; the body never reads it. -/
def envSnapshotLines (cfg : LogConfig) (envVars : List (String × String)) :
    List String :=
  let sortedKeys := (envVars.map Prod.fst).insertionSort (fun a b => a ≤ b)
  sortedKeys.map (fun k =>
    let v := (envLookup envVars k).getD ""
    if redactKey k then k ++ " = [REDACTED]" else k ++ " = " ++ v)

theorem envLookup_of_mem_nodup (l : List (String × String)) (k v : String)
    (hnd : (l.map Prod.fst).Nodup) (hkv : (k, v) ∈ l) : envLookup l k = some v := by
  induction l with
  | nil => cases hkv
  | cons p ps ih =>
    rw [List.map_cons, List.nodup_cons] at hnd
    rcases List.mem_cons.mp hkv with heq | hmem
    · subst heq
      simp [envLookup, List.find?_cons]
    · have hk : ¬(p.1 = k) := fun he =>
        hnd.1 (he ▸ List.mem_map.mpr ⟨(k, v), hmem, rfl⟩)
      simp only [envLookup, List.find?_cons, decide_eq_false hk, cond_false]
      simpa [envLookup] using ih hnd.2 hmem

/-- C9 counterexample: a key matching a configured secret pattern (here
the pattern is the key itself, which any pattern semantics matches) is
printed with its value, not `[REDACTED]`: `secret_patterns` is ignored. -/
theorem envSnapshot_secret_patterns_ignored_cex :
    envSnapshotLines { secret_patterns := some ["MYSTUFF"] } [("MYSTUFF", "v")]
      = ["MYSTUFF = v"] ∧
    ("MYSTUFF = v" : String) ≠ "MYSTUFF = [REDACTED]" := by
  exact ⟨by decide, by decide⟩

/-- C9 (amended): the snapshot lists the keys in sorted order and redacts
a value exactly when the uppercased key contains one of the default
keywords KEY, TOKEN, PASS, SECRET; the configured secret patterns play no
part (any two configs produce identical snapshots). -/
theorem envSnapshot_sorted_and_redacted (cfg cfg' : LogConfig)
    (envVars : List (String × String)) (hnd : (envVars.map Prod.fst).Nodup) :
    envSnapshotLines cfg envVars = envSnapshotLines cfg' envVars ∧
    List.Sorted (· ≤ ·)
      ((envVars.map Prod.fst).insertionSort (fun a b => a ≤ b)) ∧
    (∀ k v, (k, v) ∈ envVars →
      (redactKey k = true → (k ++ " = [REDACTED]") ∈ envSnapshotLines cfg envVars) ∧
      (redactKey k = false → (k ++ " = " ++ v) ∈ envSnapshotLines cfg envVars)) := by
  refine ⟨rfl, ?_, ?_⟩
  · have := List.sorted_insertionSort (r := fun a b : String => a ≤ b)
      (envVars.map Prod.fst)
    simpa [List.Sorted] using this
  · intro k v hkv
    have hksorted : k ∈ (envVars.map Prod.fst).insertionSort (fun a b => a ≤ b) := by
      rw [List.Perm.mem_iff (List.perm_insertionSort _ _)]
      exact List.mem_map.mpr ⟨(k, v), hkv, rfl⟩
    have hlook : envLookup envVars k = some v :=
      envLookup_of_mem_nodup envVars k v hnd hkv
    constructor
    · intro hred
      unfold envSnapshotLines
      refine List.mem_map.mpr ⟨k, hksorted, ?_⟩
      simp [hred]
    · intro hred
      unfold envSnapshotLines
      refine List.mem_map.mpr ⟨k, hksorted, ?_⟩
      simp [hred, hlook]

/-- Witness for the amended C9 theorem at a concrete environment. -/
theorem envSnapshot_sorted_and_redacted_witness :
    envSnapshotLines { secret_patterns := some ["HOME"] }
        [("HOME", "/root"), ("API_KEY", "abc")]
      = envSnapshotLines { } [("HOME", "/root"), ("API_KEY", "abc")] ∧
    List.Sorted (· ≤ ·)
      (((([("HOME", "/root"), ("API_KEY", "abc")] : List (String × String))).map
        Prod.fst).insertionSort (fun a b => a ≤ b)) ∧
    (∀ k v, (k, v) ∈ ([("HOME", "/root"), ("API_KEY", "abc")] :
        List (String × String)) →
      (redactKey k = true →
        (k ++ " = [REDACTED]") ∈ envSnapshotLines { secret_patterns := some ["HOME"] }
          [("HOME", "/root"), ("API_KEY", "abc")]) ∧
      (redactKey k = false →
        (k ++ " = " ++ v) ∈ envSnapshotLines { secret_patterns := some ["HOME"] }
          [("HOME", "/root"), ("API_KEY", "abc")])) :=
  envSnapshot_sorted_and_redacted { secret_patterns := some ["HOME"] } { }
    [("HOME", "/root"), ("API_KEY", "abc")] (by decide)

/-! ## The embedded shell (src/pas/ast.rs, context.rs, executor.rs)

Stream handles (stdin/stdout/stderr plumbing, pipes, redirect file
handles) carry no environment or working-directory state and are not
modelled; the context effects and exit codes are.  Command dispatch
(registry builtins and the system fallback) is a single oracle
`execCmd : full_args → context → (context, exit code)`, so builtins such
as `cd` and `export` may mutate the context arbitrarily.  The platform is
non-Windows, so the backslash normalization of `expand_arg` is inactive.
-/

inductive ArgPart where
  | lit (s : String)
  | var (name : String)
  deriving DecidableEq

structure Arg where
  parts : List ArgPart
  deriving DecidableEq

inductive RedirectMode where
  | overwrite
  | append
  | input
  | mergeStderrToStdout
  deriving DecidableEq

inductive CommandExpr where
  | simple (program : Arg) (args : List Arg)
  | pipe (left right : CommandExpr)
  | redirect (cmd : CommandExpr) (target : Arg) (mode : RedirectMode) (source_fd : Nat)
  | andE (left right : CommandExpr)
  | orE (left right : CommandExpr)
  | assignment (key : String) (value : Arg)
  | subshell (cmd : CommandExpr)
  | ifE (cond then_branch : CommandExpr) (else_branch : Option CommandExpr)
  | whileE (cond body : CommandExpr)
  | seqE (left right : CommandExpr)

/-- Model of `ShellContext` (src/pas/context.rs); the command registry is
immutable and shared, and lives in the dispatch oracle instead. -/
structure ShellContext where
  cwd : String
  env : List (String × String)
  exit_code : Int
  deriving DecidableEq

/-- Model of `ShellContext::clone_for_parallel`: the environment, working
directory and exit code are copied (the registry handle is shared). -/
def cloneForParallel (ctx : ShellContext) : ShellContext :=
  { cwd := ctx.cwd, env := ctx.env, exit_code := ctx.exit_code }

/-- `HashMap::insert` on the association-list model. -/
def envInsert (k v : String) (l : List (String × String)) :
    List (String × String) :=
  (k, v) :: l.filter (fun p => p.1 != k)

/-- Expansion of one non-leading argument part (src/pas/executor.rs lines
208-219): `$?` is the last exit code, known names their values, unknown
names the empty string. -/
def expandPart (ctx : ShellContext) (p : ArgPart) : String :=
  match p with
  | .lit s => s
  | .var name =>
    if name = "?" then toString ctx.exit_code
    else
      match envLookup ctx.env name with
      | some v => v
      | none => ""

/-- Model of `expand_arg` (src/pas/executor.rs lines 180-225): the leading
literal part gets `~`/`~/` expansion against `HOME`, every variable part
expands via the environment (unknown names vanish), and the parts are
concatenated. -/
def expandArg (arg : Arg) (ctx : ShellContext) : String :=
  match arg.parts with
  | [] => ""
  | first :: rest =>
    let head :=
      match first with
      | .lit s =>
        if s = "~" || s.startsWith "~/" then
          match envLookup ctx.env "HOME" with
          | some home => home ++ String.mk (s.toList.drop 1)
          | none => s
        else s
      | .var name =>
        if name = "?" then toString ctx.exit_code
        else
          match envLookup ctx.env name with
          | some v => v
          | none => ""
    (rest.map (expandPart ctx)).foldl (fun acc s => acc ++ s) head

structure ExecEnv where
  execCmd : List String → ShellContext → ShellContext × Int
  glob : String → List String

inductive ExecErr where
  | outOfFuel

def hasWildcard (s : String) : Bool :=
  strContains s "*" || strContains s "?" || strContains s "["

/-- Pathname expansion of one expanded argument (src/pas/executor.rs lines
53-69): wildcards expand to the glob matches, and the literal is retained
when nothing matches. -/
def globArg (G : String → List String) (s : String) : List String :=
  if hasWildcard s then
    match G s with
    | [] => [s]
    | paths => paths
  else [s]

/-- Model of `execute_expr` (src/pas/executor.rs lines 32-177), with fuel
for the `while` loop.  Pipes run the left side against a clone whose
result and mutations are discarded (the source ignores the join result);
subshells run the child against a clone and adopt only the exit code. -/
def executeExpr (E : ExecEnv) : Nat → CommandExpr → ShellContext →
    Except ExecErr (ShellContext × Int)
  | 0, _, _ => .error .outOfFuel
  | fuel + 1, e, ctx =>
    match e with
    | .simple program args =>
      let progStr := expandArg program ctx
      let fullArgs :=
        progStr :: (args.map (fun a => globArg E.glob (expandArg a ctx))).flatten
      let r := E.execCmd fullArgs ctx
      .ok ({ r.1 with exit_code := r.2 }, r.2)
    | .pipe left right =>
      let _ := executeExpr E fuel left (cloneForParallel ctx)
      executeExpr E fuel right ctx
    | .redirect cmd target mode _ =>
      match mode with
      | .mergeStderrToStdout => executeExpr E fuel cmd ctx
      | _ =>
        let _ := expandArg target ctx
        executeExpr E fuel cmd ctx
    | .andE l r =>
      match executeExpr E fuel l ctx with
      | .error err => .error err
      | .ok (ctx1, code) =>
        if code = 0 then executeExpr E fuel r ctx1 else .ok (ctx1, code)
    | .orE l r =>
      match executeExpr E fuel l ctx with
      | .error err => .error err
      | .ok (ctx1, code) =>
        if code ≠ 0 then executeExpr E fuel r ctx1 else .ok (ctx1, code)
    | .seqE l r =>
      match executeExpr E fuel l ctx with
      | .error err => .error err
      | .ok (ctx1, _) => executeExpr E fuel r ctx1
    | .assignment key value =>
      let v := expandArg value ctx
      .ok ({ ctx with env := envInsert key v ctx.env }, 0)
    | .subshell cmd =>
      match executeExpr E fuel cmd (cloneForParallel ctx) with
      | .ok p => .ok (ctx, p.2)
      | .error err => .error err
    | .ifE cond thenB elseB =>
      match executeExpr E fuel cond ctx with
      | .error err => .error err
      | .ok (ctx1, code) =>
        if code = 0 then executeExpr E fuel thenB ctx1
        else
          match elseB with
          | some eb => executeExpr E fuel eb ctx1
          | none => .ok (ctx1, 0)
    | .whileE cond body =>
      match executeExpr E fuel cond ctx with
      | .error err => .error err
      | .ok (ctx1, code) =>
        if code = 0 then
          match executeExpr E fuel body ctx1 with
          | .error err => .error err
          | .ok (ctx2, _) => executeExpr E fuel (.whileE cond body) ctx2
        else .ok (ctx1, 0)

/-- C7: evaluating a subshell returns the outer context exactly as it was
— environment map, working directory (and even the recorded exit code)
untouched — adopting only the exit code produced by running the child
against a clone; in particular an assignment inside a subshell never
escapes, for every command-dispatch oracle (so also for `cd` and `export`
builtins, which are oracle calls that may mutate their context). -/
theorem subshell_isolation (E : ExecEnv) (fuel : Nat) (e : CommandExpr)
    (ctx : ShellContext) :
    (executeExpr E (fuel + 1) (.subshell e) ctx
      = (executeExpr E fuel e (cloneForParallel ctx)).map (fun p => (ctx, p.2)))
    ∧ (∀ key value,
        executeExpr E (fuel + 2) (.subshell (.assignment key value)) ctx
          = .ok (ctx, 0)) := by
  constructor
  · cases h : executeExpr E fuel e (cloneForParallel ctx) with
    | ok p => simp [executeExpr, h, Except.map]
    | error err => simp [executeExpr, h, Except.map]
  · intro key value
    rfl

def emptyCtx : ShellContext := { cwd := "/", env := [], exit_code := 0 }

/-- C8 counterexample: a `$FOO` reference with `FOO` absent from the
environment expands to the empty string — the literal reference text
(`$FOO` or `$\x7bFOO\x7d`) does not appear in the expansion. -/
theorem expandArg_unknown_not_preserved_cex :
    expandArg { parts := [.var "FOO"] } emptyCtx = "" ∧
    ("" : String) ≠ "$FOO" ∧ ("" : String) ≠ "$\x7bFOO\x7d" :=
  ⟨rfl, by decide, by decide⟩

/-- C8 (amended): at execution time a variable reference whose name is
absent from the context environment expands to the empty string — it is
dropped from the expanded token, not preserved verbatim — while `$?`
yields the last exit code. -/
theorem expandArg_absent_var (ctx : ShellContext) (name : String)
    (hq : ¬(name = "?")) (habs : envLookup ctx.env name = none) :
    (∀ parts, expandArg { parts := parts ++ [.var name] } ctx
        = expandArg { parts := parts } ctx) ∧
    expandArg { parts := [.var name] } ctx = "" ∧
    expandArg { parts := [.var "?"] } ctx = toString ctx.exit_code := by
  have hpart : expandPart ctx (.var name) = "" := by
    simp [expandPart, hq, habs]
  refine ⟨?_, ?_, ?_⟩
  · intro parts
    cases parts with
    | nil => simp [expandArg, hq, habs]
    | cons first rest =>
      simp only [expandArg, List.cons_append, List.map_append, List.map_cons,
        List.map_nil, List.foldl_append, List.foldl_cons, List.foldl_nil, hpart]
      simp
  · simp [expandArg, hq, habs]
  · simp [expandArg]

def ctx8 : ShellContext := { cwd := "/w", env := [("A", "x")], exit_code := 7 }

/-- Witness for the amended C8 theorem at a concrete context. -/
theorem expandArg_absent_var_witness :
    (∀ parts, expandArg { parts := parts ++ [.var "FOO"] } ctx8
        = expandArg { parts := parts } ctx8) ∧
    expandArg { parts := [.var "FOO"] } ctx8 = "" ∧
    expandArg { parts := [.var "?"] } ctx8 = toString ctx8.exit_code :=
  expandArg_absent_var ctx8 "FOO" (by decide) rfl

/-! ## Config loader (src/config.rs lines 124-284)

`load_config` is modelled on the parsed contents: the base manifest's
`[env]` pairs, the overlay files (name, `[env]` pairs) as globbed (the
loader sorts them by filename; `Vec::sort` is modelled by insertion sort,
identical on the distinct filenames), the chosen `.env` file's ordered
entry stream, and an oracle for `run_shell_command` in buffer mode.
Capabilities, task merging and metadata do not touch the environment or
its provenance and are not needed by the provenance claims.
-/

abbrev EnvMap := List (String × String)

abbrev Prov := String → List (String × String)

/-- serde fills a `HashMap` insert-by-insert; later duplicates win. -/
def mkEnv (pairs : EnvMap) : EnvMap :=
  pairs.foldl (fun e p => envInsert p.1 p.2 e) []

/-- Appending one provenance entry for a key. -/
def provPush (k : String) (entry : String × String) (p : Prov) : Prov :=
  fun k' => if k' = k then p k' ++ [entry] else p k'

/-- ASCII whitespace trim, the model of `str::trim`. -/
def isWhite (c : Char) : Bool := c = ' ' || c = '\t' || c = '\n' || c = '\r'

def strTrim (s : String) : String :=
  String.mk (((s.toList.dropWhile isWhite).reverse.dropWhile isWhite).reverse)

/-- The dynamic-value test `^\$\((.*)\)$` (the dot does not match a
newline): the whole value is `$(`, a command without newlines, `)`. -/
def matchDyn (v : String) : Option String :=
  let cs := v.toList
  if 3 ≤ cs.length ∧ cs.take 2 = ['$', '('] ∧ cs.getLast? = some ')' ∧
      ¬ '\n' ∈ (cs.drop 2).dropLast then
    some (String.mk ((cs.drop 2).dropLast))
  else none

structure LoadInput where
  baseEnv : EnvMap
  overlays : List (String × EnvMap)
  envFile : Option (String × EnvMap)
  runCmd : String → Int × String

/-- Provenance initialisation (lines 134-138): every variable of the base
map is recorded with source `"p.toml"`. -/
def baseState (baseEnv : EnvMap) : EnvMap × Prov :=
  let env0 := mkEnv baseEnv
  (env0,
   fun k =>
     match envLookup env0 k with
     | some v => [("p.toml", v)]
     | none => [])

/-- One overlay (lines 175-214): push a provenance entry for every key of
the overlay's env map, then merge with last-writer-wins. -/
def applyOverlay (st : EnvMap × Prov) (ov : String × EnvMap) : EnvMap × Prov :=
  let extEnv := mkEnv ov.2
  (extEnv.foldl (fun e p => envInsert p.1 p.2 e) st.1,
   extEnv.foldl (fun pr p => provPush p.1 (ov.1, p.2) pr) st.2)

/-- One `.env` entry (lines 234-242): track provenance then override. -/
def applyEnvEntry (fname : String) (st : EnvMap × Prov) (p : String × String) :
    EnvMap × Prov :=
  (envInsert p.1 p.2 st.1, provPush p.1 (fname, p.2) st.2)

def afterOverlays (inp : LoadInput) : EnvMap × Prov :=
  (inp.overlays.insertionSort (fun a b => a.1 ≤ b.1)).foldl applyOverlay
    (baseState inp.baseEnv)

def afterEnvFile (inp : LoadInput) : EnvMap × Prov :=
  match inp.envFile with
  | none => afterOverlays inp
  | some fe => fe.2.foldl (applyEnvEntry fe.1) (afterOverlays inp)

/-- The keys holding a resolvable dynamic value `$(cmd)` with a non-blank
command, paired with the command (lines 250-274). -/
def dynCmds (env : EnvMap) : List (String × String) :=
  env.filterMap (fun p =>
    match matchDyn p.2 with
    | some cmd => if strTrim cmd = "" then none else some (p.1, cmd)
    | none => none)

/-- Model of `load_config`: base, overlays sorted by name, `.env` variant,
then dynamic resolution (any non-zero exit is fatal); returns the final
environment and the provenance map. -/
def loadConfig (inp : LoadInput) : Option (EnvMap × Prov) :=
  let st2 := afterEnvFile inp
  let dyns := dynCmds st2.1
  if dyns.any (fun p => (inp.runCmd p.2).1 ≠ 0) then none
  else
    let ups := dyns.map (fun p => (p.1, strTrim (inp.runCmd p.2).2))
    some (ups.foldl (fun e p => envInsert p.1 p.2 e) st2.1,
          ups.foldl (fun pr p => provPush p.1 ("dynamic", p.2) pr) st2.2)

/-- The full ordered source sequence a provenance list can follow:
`p.toml`, the overlay filenames in sorted order, the `.env` variant once
per entry of the file, then `dynamic`. -/
def masterSources (inp : LoadInput) : List String :=
  "p.toml" ::
    ((inp.overlays.insertionSort (fun a b => a.1 ≤ b.1)).map Prod.fst ++
      (match inp.envFile with
       | none => []
       | some fe => List.replicate fe.2.length fe.1) ++
      ["dynamic"])

theorem find?_filter_ne (l : EnvMap) (k k' : String) (h : ¬ k' = k) :
    (l.filter (fun p => p.1 != k)).find? (fun p => p.1 = k')
      = l.find? (fun p => p.1 = k') := by
  induction l with
  | nil => rfl
  | cons p ps ih =>
    by_cases hp : p.1 = k
    · have hb : (p.1 != k) = false := by simp [hp]
      have hm : ¬(p.1 = k') := fun he => h (he ▸ hp ▸ rfl)
      rw [List.filter_cons, hb]
      simp only [Bool.false_eq_true, if_false]
      rw [List.find?_cons_of_neg _ (by simpa using hm), ih]
    · have hb : (p.1 != k) = true := by simp [hp]
      rw [List.filter_cons, hb]
      simp only [if_true]
      by_cases hm : p.1 = k'
      · rw [List.find?_cons_of_pos _ (by simpa using hm),
          List.find?_cons_of_pos _ (by simpa using hm)]
      · rw [List.find?_cons_of_neg _ (by simpa using hm),
          List.find?_cons_of_neg _ (by simpa using hm), ih]

theorem envLookup_envInsert (k v : String) (l : EnvMap) (k' : String) :
    envLookup (envInsert k v l) k' = if k' = k then some v else envLookup l k' := by
  unfold envInsert envLookup
  by_cases h : k' = k
  · subst h
    rw [List.find?_cons_of_pos _ (by simp)]
    simp
  · have hm : ¬((k, v).1 = k') := fun he => h he.symm
    rw [List.find?_cons_of_neg _ (by simpa using hm), if_neg h,
      find?_filter_ne l k k' h]

theorem keys_nodup_envInsert (k v : String) (l : EnvMap)
    (h : (l.map Prod.fst).Nodup) :
    ((envInsert k v l).map Prod.fst).Nodup := by
  unfold envInsert
  rw [List.map_cons, List.nodup_cons]
  constructor
  · intro hmem
    obtain ⟨p, hp, hpk⟩ := List.mem_map.mp hmem
    have hne := List.of_mem_filter hp
    simp only [bne_iff_ne, ne_eq] at hne
    exact hne hpk
  · exact h.sublist ((List.filter_sublist _).map Prod.fst)

theorem keys_nodup_foldl_envInsert (l : EnvMap) (env : EnvMap)
    (h : (env.map Prod.fst).Nodup) :
    ((l.foldl (fun e p => envInsert p.1 p.2 e) env).map Prod.fst).Nodup := by
  induction l generalizing env with
  | nil => exact h
  | cons p ps ih =>
    rw [List.foldl_cons]
    exact ih _ (keys_nodup_envInsert _ _ _ h)

theorem mkEnv_keys_nodup (pairs : EnvMap) : ((mkEnv pairs).map Prod.fst).Nodup :=
  keys_nodup_foldl_envInsert pairs [] (by simp)

theorem envLookup_none_iff (l : EnvMap) (k : String) :
    envLookup l k = none ↔ ∀ p ∈ l, ¬(p.1 = k) := by
  unfold envLookup
  rw [Option.map_eq_none', List.find?_eq_none]
  simp

theorem foldl_envInsert_lookup_none (l : EnvMap) (env : EnvMap) (k : String)
    (h : envLookup l k = none) :
    envLookup (l.foldl (fun e p => envInsert p.1 p.2 e) env) k = envLookup env k := by
  induction l generalizing env with
  | nil => rfl
  | cons p ps ih =>
    rw [envLookup_none_iff] at h
    have hp : ¬(p.1 = k) := h p (List.mem_cons_self p ps)
    have hps : envLookup ps k = none :=
      (envLookup_none_iff ps k).mpr fun q hq => h q (List.mem_cons_of_mem p hq)
    rw [List.foldl_cons, ih _ hps, envLookup_envInsert,
      if_neg (fun he => hp he.symm)]

theorem foldl_envInsert_lookup_some (l : EnvMap) (env : EnvMap) (k v : String)
    (hnd : (l.map Prod.fst).Nodup) (h : envLookup l k = some v) :
    envLookup (l.foldl (fun e p => envInsert p.1 p.2 e) env) k = some v := by
  induction l generalizing env with
  | nil => cases h
  | cons p ps ih =>
    rw [List.map_cons, List.nodup_cons] at hnd
    rw [List.foldl_cons]
    by_cases hp : p.1 = k
    · have hv : p.2 = v := by
        unfold envLookup at h
        rw [List.find?_cons_of_pos _ (by simpa using hp)] at h
        simpa using h
      have hps : envLookup ps k = none := by
        rw [envLookup_none_iff]
        intro q hq hqk
        exact hnd.1 (hp ▸ hqk ▸ List.mem_map.mpr ⟨q, hq, rfl⟩)
      rw [foldl_envInsert_lookup_none ps _ k hps, envLookup_envInsert,
        if_pos hp.symm, hv]
    · have hps : envLookup ps k = some v := by
        unfold envLookup at h ⊢
        rw [List.find?_cons_of_neg _ (by simpa using hp)] at h
        exact h
      exact ih _ hnd.2 hps

theorem foldl_provPush_apply (l : EnvMap) (src : String) (prov : Prov) (k : String) :
    (l.foldl (fun pr p => provPush p.1 (src, p.2) pr) prov) k
      = prov k ++ (l.filter (fun p => p.1 = k)).map (fun p => (src, p.2)) := by
  induction l generalizing prov with
  | nil => simp
  | cons p ps ih =>
    rw [List.foldl_cons, ih, List.filter_cons]
    by_cases hp : p.1 = k
    · rw [if_pos (by simpa using hp)]
      simp [provPush, hp, List.append_assoc]
    · rw [if_neg (by simpa using hp)]
      have hk : ¬(k = p.1) := fun he => hp he.symm
      have hpp : provPush p.1 (src, p.2) prov k = prov k := by
        simp [provPush, hk]
      rw [hpp]

theorem filter_key_of_lookup_none (l : EnvMap) (k : String)
    (h : envLookup l k = none) : l.filter (fun p => p.1 = k) = [] := by
  rw [envLookup_none_iff] at h
  rw [List.filter_eq_nil_iff]
  intro p hp
  simpa using h p hp

theorem filter_key_of_lookup_some (l : EnvMap) (k v : String)
    (hnd : (l.map Prod.fst).Nodup) (h : envLookup l k = some v) :
    l.filter (fun p => p.1 = k) = [(k, v)] := by
  induction l with
  | nil => cases h
  | cons p ps ih =>
    rw [List.map_cons, List.nodup_cons] at hnd
    rw [List.filter_cons]
    by_cases hp : p.1 = k
    · have hv : p.2 = v := by
        unfold envLookup at h
        rw [List.find?_cons_of_pos _ (by simpa using hp)] at h
        simpa using h
      have hps : envLookup ps k = none := by
        rw [envLookup_none_iff]
        intro q hq hqk
        exact hnd.1 (hp ▸ hqk ▸ List.mem_map.mpr ⟨q, hq, rfl⟩)
      rw [if_pos (by simpa using hp), filter_key_of_lookup_none ps k hps]
      have : p = (k, v) := by
        obtain ⟨p1, p2⟩ := p
        simp only at hp hv
        rw [hp, hv]
      rw [this]
    · have hps : envLookup ps k = some v := by
        unfold envLookup at h ⊢
        rw [List.find?_cons_of_neg _ (by simpa using hp)] at h
        exact h
      rw [if_neg (by simpa using hp)]
      exact ih hnd.2 hps

/-- The loader invariant: unique env keys; every key's provenance sources
are a subsequence of the master prefix, and a key present in the
environment has a provenance whose last entry carries its value. -/
def ProvInv (env : EnvMap) (prov : Prov) (master : List String) : Prop :=
  (env.map Prod.fst).Nodup ∧
  ∀ k, List.Sublist ((prov k).map Prod.fst) master ∧
    ∀ v, envLookup env k = some v → ∃ src, (prov k).getLast? = some (src, v)

theorem ProvInv_base (baseEnv : EnvMap) :
    ProvInv (baseState baseEnv).1 (baseState baseEnv).2 ["p.toml"] := by
  refine ⟨mkEnv_keys_nodup baseEnv, fun k => ?_⟩
  constructor
  · cases h : envLookup (mkEnv baseEnv) k with
    | some v => simp [baseState, h]
    | none => simp [baseState, h]
  · intro v hv
    simp only [baseState] at hv
    exact ⟨"p.toml", by simp [baseState, hv]⟩

theorem ProvInv_block (src : String) (ext : EnvMap)
    (hnd : (ext.map Prod.fst).Nodup) (env : EnvMap) (prov : Prov)
    (master : List String) (hInv : ProvInv env prov master) :
    ProvInv (ext.foldl (fun e p => envInsert p.1 p.2 e) env)
      (ext.foldl (fun pr p => provPush p.1 (src, p.2) pr) prov)
      (master ++ [src]) := by
  obtain ⟨hndE, hk⟩ := hInv
  refine ⟨keys_nodup_foldl_envInsert ext env hndE, fun k => ?_⟩
  have hprov := foldl_provPush_apply ext src prov k
  cases hext : envLookup ext k with
  | none =>
    rw [filter_key_of_lookup_none ext k hext] at hprov
    simp only [List.map_nil, List.append_nil] at hprov
    rw [hprov]
    refine ⟨((hk k).1).trans (List.sublist_append_left master [src]), ?_⟩
    intro v hv
    rw [foldl_envInsert_lookup_none ext env k hext] at hv
    exact (hk k).2 v hv
  | some w =>
    rw [filter_key_of_lookup_some ext k w hnd hext] at hprov
    simp only [List.map_cons, List.map_nil] at hprov
    rw [hprov]
    constructor
    · rw [List.map_append]
      simp only [List.map_cons, List.map_nil]
      exact List.Sublist.append (hk k).1 (List.Sublist.refl [src])
    · intro v hv
      rw [foldl_envInsert_lookup_some ext env k w hnd hext] at hv
      injection hv with hv
      subst hv
      exact ⟨src, by simp⟩

theorem ProvInv_overlays (ovs : List (String × EnvMap)) (env : EnvMap)
    (prov : Prov) (master : List String) (hInv : ProvInv env prov master) :
    ProvInv (ovs.foldl applyOverlay (env, prov)).1
      (ovs.foldl applyOverlay (env, prov)).2
      (master ++ ovs.map Prod.fst) := by
  induction ovs generalizing env prov master with
  | nil => simpa using hInv
  | cons ov rest ih =>
    rw [List.foldl_cons]
    have hstep : ProvInv (applyOverlay (env, prov) ov).1
        (applyOverlay (env, prov) ov).2 (master ++ [ov.1]) := by
      have := ProvInv_block ov.1 (mkEnv ov.2) (mkEnv_keys_nodup _) env prov master hInv
      simpa [applyOverlay] using this
    have hrest := ih (applyOverlay (env, prov) ov).1 (applyOverlay (env, prov) ov).2
      (master ++ [ov.1]) hstep
    simpa [List.append_assoc] using hrest

theorem ProvInv_envEntries (fname : String) (entries : EnvMap) (env : EnvMap)
    (prov : Prov) (master : List String) (hInv : ProvInv env prov master) :
    ProvInv (entries.foldl (applyEnvEntry fname) (env, prov)).1
      (entries.foldl (applyEnvEntry fname) (env, prov)).2
      (master ++ List.replicate entries.length fname) := by
  induction entries generalizing env prov master with
  | nil => simpa using hInv
  | cons p ps ih =>
    rw [List.foldl_cons]
    have hstep : ProvInv (applyEnvEntry fname (env, prov) p).1
        (applyEnvEntry fname (env, prov) p).2 (master ++ [fname]) := by
      have := ProvInv_block fname [p] (by simp) env prov master hInv
      simpa [applyEnvEntry] using this
    have hrest := ih (applyEnvEntry fname (env, prov) p).1
      (applyEnvEntry fname (env, prov) p).2 (master ++ [fname]) hstep
    simpa [List.append_assoc, List.replicate_succ] using hrest

theorem dynCmds_keys_sublist (env : EnvMap) :
    List.Sublist ((dynCmds env).map Prod.fst) (env.map Prod.fst) := by
  unfold dynCmds
  induction env with
  | nil => simp
  | cons p ps ih =>
    rw [List.filterMap_cons]
    cases matchDyn p.2 with
    | none =>
      simp only [List.map_cons]
      exact ih.trans (List.sublist_cons_self _ _)
    | some cmd =>
      by_cases hcmd : strTrim cmd = ""
      · simp only [hcmd, if_true, List.map_cons]
        exact ih.trans (List.sublist_cons_self _ _)
      · simp only [hcmd, if_neg hcmd, List.map_cons]
        exact List.Sublist.cons₂ _ ih

/-- C5: after `load_config` succeeds, every key of the returned
environment has a non-empty provenance list, the last entry's value
equals the map's value for the key, and the entry sources occur in the
order `p.toml`, overlay filenames sorted lexicographically, the chosen
`.env` variant filename, then `dynamic` (formally: the key's source
sequence is a subsequence of that master sequence). -/
theorem load_config_provenance (inp : LoadInput) (env : EnvMap) (prov : Prov)
    (h : loadConfig inp = some (env, prov)) :
    ∀ k v, envLookup env k = some v →
      prov k ≠ [] ∧ (∃ src, (prov k).getLast? = some (src, v)) ∧
      List.Sublist ((prov k).map Prod.fst) (masterSources inp) := by
  have h0 := ProvInv_base inp.baseEnv
  have h1 := ProvInv_overlays (inp.overlays.insertionSort (fun a b => a.1 ≤ b.1))
    (baseState inp.baseEnv).1 (baseState inp.baseEnv).2 ["p.toml"] h0
  set names := (inp.overlays.insertionSort (fun a b => a.1 ≤ b.1)).map Prod.fst
  have h1' : ProvInv (afterOverlays inp).1 (afterOverlays inp).2
      ("p.toml" :: names) := by
    unfold afterOverlays
    simpa using h1
  have h2 : ProvInv (afterEnvFile inp).1 (afterEnvFile inp).2
      (("p.toml" :: names) ++
        (match inp.envFile with
         | none => []
         | some fe => List.replicate fe.2.length fe.1)) := by
    unfold afterEnvFile
    cases hef : inp.envFile with
    | none => simpa using h1'
    | some fe =>
      have := ProvInv_envEntries fe.1 fe.2 (afterOverlays inp).1
        (afterOverlays inp).2 ("p.toml" :: names) h1'
      simpa using this
  have hndups : (((dynCmds (afterEnvFile inp).1).map
      (fun p => (p.1, strTrim (inp.runCmd p.2).2))).map Prod.fst).Nodup := by
    have hkeys : ((dynCmds (afterEnvFile inp).1).map
        (fun p => (p.1, strTrim (inp.runCmd p.2).2))).map Prod.fst
        = (dynCmds (afterEnvFile inp).1).map Prod.fst := by
      rw [List.map_map]
      rfl
    rw [hkeys]
    exact h2.1.sublist (dynCmds_keys_sublist _)
  unfold loadConfig at h
  by_cases hfail : (dynCmds (afterEnvFile inp).1).any
      (fun p => (inp.runCmd p.2).1 ≠ 0)
  · rw [if_pos hfail] at h
    cases h
  · rw [if_neg hfail] at h
    have h3 := ProvInv_block "dynamic"
      ((dynCmds (afterEnvFile inp).1).map
        (fun p => (p.1, strTrim (inp.runCmd p.2).2)))
      hndups (afterEnvFile inp).1 (afterEnvFile inp).2 _ h2
    injection h with h
    injection h with henv hprov
    intro k v hv
    obtain ⟨hsub, hlast⟩ := h3.2 k
    rw [hprov] at hsub hlast
    rw [← henv] at hv
    obtain ⟨src, hsrc⟩ := hlast v hv
    refine ⟨?_, ⟨src, hsrc⟩, ?_⟩
    · intro hnil
      rw [hnil] at hsrc
      cases hsrc
    · have hmaster : (("p.toml" :: names) ++
          (match inp.envFile with
           | none => []
           | some fe => List.replicate fe.2.length fe.1)) ++ ["dynamic"]
          = masterSources inp := by
        unfold masterSources
        simp [List.append_assoc, names]
      rw [hmaster] at hsub
      exact hsub

/-- The env-layering scenario: `p.toml` has `X="a"`, `p.override.toml` has
`X="b"`, `.env` has `X=c`, no dynamic values. -/
def layerInput : LoadInput :=
  { baseEnv := [("X", "a")],
    overlays := [("p.override.toml", [("X", "b")])],
    envFile := some (".env", [("X", "c")]),
    runCmd := fun _ => (0, "") }

/-- Witness for the C5 theorem on the layering scenario: the final value
of `X` is `"c"`, its provenance is exactly
`[("p.toml","a"), ("p.override.toml","b"), (".env","c")]`, and the
theorem applies. -/
theorem load_config_provenance_witness :
    (afterEnvFile layerInput).2 "X"
        = [("p.toml", "a"), ("p.override.toml", "b"), (".env", "c")] ∧
    envLookup (afterEnvFile layerInput).1 "X" = some "c" ∧
    ((afterEnvFile layerInput).2 "X" ≠ [] ∧
      (∃ src, ((afterEnvFile layerInput).2 "X").getLast? = some (src, "c")) ∧
      List.Sublist (((afterEnvFile layerInput).2 "X").map Prod.fst)
        (masterSources layerInput)) := by
  refine ⟨?_, ?_, ?_⟩
  · rfl
  · rfl
  · exact load_config_provenance layerInput (afterEnvFile layerInput).1
      (afterEnvFile layerInput).2 rfl "X" "c" rfl

end Pavidi
